import Mathlib

/-!
# DebridMovieMapper — verification of the specified behaviour

Shallow embedding of the DebridMovieMapper source (Rust) into Lean 4,
together with theorems settling the specification claims.

Conventions used throughout:

* machine integers (`u32`, `u64`, `usize`) are modelled as `Nat`; none of the
  embedded arithmetic can overflow on the inputs the program handles, and the
  source never relies on wrap-around;
* `std::time::Instant` values are modelled as `Nat` timestamps (seconds),
  with the current time passed explicitly (`now`); `elapsed()` becomes
  `now - t` (saturating, as `Nat` subtraction);
* `HashMap<String, _>` state is modelled as an association list
  `List (String × _)` with `lookup` / insert-replace / remove operations
  (iteration order of a `HashMap` is unobservable in the embedded claims);
* `BTreeMap<String, _>` (the VFS children) is an association list kept sorted
  by key, matching the B-tree's iteration order;
* network effects are passed in as explicit oracle values (the response the
  remote would have produced), and fallible calls return `Except`/`Option`;
* byte strings (`Vec<u8>`) are modelled as `List Nat` of byte values, with an
  explicit UTF-8 encoder for `String::into_bytes`.
-/

namespace DebridMovieMapper

/-! ## §0 Shared data model (src/rd_client.rs, src/vfs.rs)

`TorrentFile` / `TorrentInfo` keep the fields the embedded code reads
(`original_filename`, `host`, `split`, `progress`, `added`, `ended` are
deserialization passengers never read by any embedded function and are
omitted).  `f64` never reaches the embedded data model. -/

/-- `TorrentFile` from src/rd_client.rs. -/
structure TorrentFile where
  id : Nat
  path : String
  bytes : Nat
  selected : Nat
deriving DecidableEq, Repr

/-- `TorrentInfo` from src/rd_client.rs (fields read by the embedded code). -/
structure TorrentInfo where
  id : String
  filename : String
  hash : String
  bytes : Nat
  status : String
  files : List TorrentFile
  links : List String
deriving DecidableEq, Repr

/-- `AddMagnetResponse` from src/rd_client.rs. -/
structure AddMagnetResponse where
  id : String
  uri : String
deriving DecidableEq, Repr

/-- `MediaType` from src/vfs.rs. -/
inductive MediaType where
  | movie : MediaType
  | show : MediaType
deriving DecidableEq, Repr

/-- `MediaMetadata` from src/vfs.rs — the VFS grouping key. -/
structure MediaMetadata where
  title : String
  year : Option String
  media_type : MediaType
  external_id : Option String
deriving DecidableEq, Repr

/-! ### Association-list model of `HashMap<String, V>`

Keys are unique in a `HashMap`; the embedding keeps an association list and
makes removal drop every entry with the key, so the model needs no separate
no-duplicate invariant. -/

/-- `HashMap::get`. -/
def alGet {α : Type} (m : List (String × α)) (k : String) : Option α :=
  match m with
  | [] => none
  | (k', v) :: rest => if k' = k then some v else alGet rest k

/-- `HashMap::insert` (replace in place, else append). -/
def alInsert {α : Type} (m : List (String × α)) (k : String) (v : α) :
    List (String × α) :=
  match m with
  | [] => [(k, v)]
  | (k', v') :: rest =>
      if k' = k then (k, v) :: rest else (k', v') :: alInsert rest k v

/-- `HashMap::remove` (keys are unique, so dropping every entry with the key
is the same operation). -/
def alRemove {α : Type} (m : List (String × α)) (k : String) :
    List (String × α) :=
  m.filter (fun kv => kv.1 ≠ k)

theorem alGet_alInsert {α : Type} (m : List (String × α)) (k k' : String) (v : α) :
    alGet (alInsert m k v) k' = if k = k' then some v else alGet m k' := by
  induction m with
  | nil => simp [alInsert, alGet]
  | cons hd tl ih =>
      obtain ⟨k0, v0⟩ := hd
      by_cases h0 : k0 = k
      · subst h0
        simp only [alInsert, if_pos rfl, alGet]
        by_cases h1 : k0 = k' <;> simp [h1]
      · simp only [alInsert, if_neg h0, alGet]
        by_cases h1 : k0 = k'
        · subst h1
          have : ¬ k = k0 := fun h => h0 h.symm
          simp [this]
        · simp [h1, ih]

theorem alGet_alRemove {α : Type} (m : List (String × α)) (k k' : String) :
    alGet (alRemove m k) k' = if k = k' then none else alGet m k' := by
  induction m with
  | nil => simp [alRemove, alGet]
  | cons hd tl ih =>
      obtain ⟨k0, v0⟩ := hd
      by_cases h0 : k0 = k
      · subst h0
        simp only [alRemove, List.filter]
        by_cases h1 : k0 = k'
        · subst h1
          simp only [ne_eq, not_true_eq_false, decide_False]
          simpa [alRemove] using ih
        · simp only [ne_eq, not_true_eq_false, decide_False]
          simpa [alRemove, alGet, h1] using ih
      · simp only [alRemove, List.filter, ne_eq, h0, not_false_eq_true, decide_True]
        by_cases h1 : k0 = k'
        · subst h1
          have : ¬ k = k0 := fun h => h0 h.symm
          simp [alGet, this]
        · simpa [alGet, h1, alRemove] using ih

/-! ## §1 Adaptive rate limiter (src/rd_client.rs lines 10-81)

`AdaptiveRateLimiter` guards a single mutex-protected state
`{ interval_ms, next_allowed }`.  `wait_for_token` only reads/advances
`next_allowed`; the two recording operations below are the only writers of
`interval_ms`. -/

/-- `MIN_INTERVAL_MS` from src/rd_client.rs. -/
def MIN_INTERVAL_MS : Nat := 100

/-- `MAX_INTERVAL_MS` from src/rd_client.rs. -/
def MAX_INTERVAL_MS : Nat := 2000

/-- `RECOVERY_MS` from src/rd_client.rs. -/
def RECOVERY_MS : Nat := 10

/-- `MAX_RETRY_AFTER_SECS` from src/rd_client.rs. -/
def MAX_RETRY_AFTER_SECS : Nat := 300

/-- `RateLimiterState` from src/rd_client.rs (`next_allowed` as a timestamp). -/
structure RateLimiterState where
  interval_ms : Nat
  next_allowed : Nat
deriving DecidableEq, Repr

/-- `AdaptiveRateLimiter::new`: interval starts at `MIN_INTERVAL_MS`,
`next_allowed` at the current instant. -/
def RateLimiterState.init (now : Nat) : RateLimiterState :=
  { interval_ms := MIN_INTERVAL_MS, next_allowed := now }

/-- `AdaptiveRateLimiter::record_success`:
`interval_ms = interval_ms.saturating_sub(RECOVERY_MS).max(MIN_INTERVAL_MS)`. -/
def recordSuccess (s : RateLimiterState) : RateLimiterState :=
  { s with interval_ms := max (s.interval_ms - RECOVERY_MS) MIN_INTERVAL_MS }

/-- `AdaptiveRateLimiter::record_throttle`:
`interval_ms = (interval_ms * 2).min(MAX_INTERVAL_MS)`, and when a
`Retry-After` is present, `next_allowed` is pushed to at least
`now + min(retry_after, MAX_RETRY_AFTER_SECS)` (times in seconds here). -/
def recordThrottle (retryAfter : Option Nat) (now : Nat) (s : RateLimiterState) :
    RateLimiterState :=
  let s := { s with interval_ms := min (s.interval_ms * 2) MAX_INTERVAL_MS }
  match retryAfter with
  | some secs =>
      let deadline := now + min secs MAX_RETRY_AFTER_SECS
      if s.next_allowed < deadline then { s with next_allowed := deadline } else s
  | none => s

/-- One recorded event on the rate limiter. -/
inductive RLOp where
  | success : RLOp
  | throttle (retryAfter : Option Nat) (now : Nat) : RLOp
deriving DecidableEq, Repr

/-- Run a sequence of `record_success` / `record_throttle` calls. -/
def runRLOps (s : RateLimiterState) : List RLOp → RateLimiterState
  | [] => s
  | .success :: rest => runRLOps (recordSuccess s) rest
  | .throttle ra now :: rest => runRLOps (recordThrottle ra now s) rest

end DebridMovieMapper

namespace DebridMovieMapper

theorem recordSuccess_interval (s : RateLimiterState) :
    (recordSuccess s).interval_ms = max (s.interval_ms - 10) 100 := rfl

theorem recordThrottle_interval (ra : Option Nat) (now : Nat) (s : RateLimiterState) :
    (recordThrottle ra now s).interval_ms = min (s.interval_ms * 2) 2000 := by
  unfold recordThrottle
  cases ra with
  | none => rfl
  | some secs => dsimp only; split <;> rfl

/-- Interval bounds are preserved by each operation. -/
theorem interval_bounds_step (s : RateLimiterState)
    (h : 100 ≤ s.interval_ms ∧ s.interval_ms ≤ 2000) (op : RLOp) :
    100 ≤ (runRLOps s [op]).interval_ms ∧ (runRLOps s [op]).interval_ms ≤ 2000 := by
  obtain ⟨h1, h2⟩ := h
  cases op with
  | success =>
      simp only [runRLOps, recordSuccess_interval]
      omega
  | throttle ra now =>
      simp only [runRLOps, recordThrottle_interval]
      omega

theorem runRLOps_append (s : RateLimiterState) (l1 l2 : List RLOp) :
    runRLOps s (l1 ++ l2) = runRLOps (runRLOps s l1) l2 := by
  induction l1 generalizing s with
  | nil => rfl
  | cons op rest ih =>
      cases op <;> simp only [List.cons_append, runRLOps] <;> exact ih _

/-- Interval bounds hold over every sequence of operations. -/
theorem interval_bounds (s : RateLimiterState)
    (h : 100 ≤ s.interval_ms ∧ s.interval_ms ≤ 2000) (ops : List RLOp) :
    100 ≤ (runRLOps s ops).interval_ms ∧ (runRLOps s ops).interval_ms ≤ 2000 := by
  induction ops generalizing s with
  | nil => exact h
  | cons op rest ih =>
      have step := interval_bounds_step s h op
      cases op with
      | success => exact ih _ step
      | throttle ra now => exact ih _ step

/-- **C4.** For every sequence of `record_throttle` and `record_success` calls
starting from the initial limiter state, the interval stays within
`[100, 2000]` ms; every throttle sets the interval to `min(2·old, 2000)`
(doubling it, capped at the 2000 ms ceiling); and every success decreases it
by at most 10 ms and never below 100 ms. -/
theorem c4_rate_limiter_interval (now0 : Nat) (ops : List RLOp) :
    (100 ≤ (runRLOps (RateLimiterState.init now0) ops).interval_ms ∧
      (runRLOps (RateLimiterState.init now0) ops).interval_ms ≤ 2000) ∧
    (∀ s : RateLimiterState, ∀ ra now,
      (recordThrottle ra now s).interval_ms = min (s.interval_ms * 2) 2000) ∧
    (∀ s : RateLimiterState,
      s.interval_ms - (recordSuccess s).interval_ms ≤ 10 ∧
      100 ≤ (recordSuccess s).interval_ms) := by
  refine ⟨?_, ?_, ?_⟩
  · exact interval_bounds _ (by constructor <;> simp [RateLimiterState.init, MIN_INTERVAL_MS]) ops
  · intro s ra now; exact recordThrottle_interval ra now s
  · intro s
    constructor
    · simp only [recordSuccess_interval]; omega
    · simp only [recordSuccess_interval]; omega

/-- Witness for C4 at a concrete sequence: two throttles then a success,
starting at time 0, lands on interval 390 ∈ [100, 2000]. -/
theorem c4_rate_limiter_interval_witness :
    100 ≤ (runRLOps (RateLimiterState.init 0)
        [.throttle none 0, .throttle none 1, .success]).interval_ms ∧
    (runRLOps (RateLimiterState.init 0)
        [.throttle none 0, .throttle none 1, .success]).interval_ms ≤ 2000 :=
  (c4_rate_limiter_interval 0 [.throttle none 0, .throttle none 1, .success]).1

/-! ## §2 Repair manager (src/repair.rs)

The health map `HashMap<String, TorrentHealth>` lives behind an `RwLock`;
every embedded operation is one lock-to-lock section (or a composition of
them).  Network calls inside `repair_torrent` and `check_torrent_health` are
supplied as oracle values.  `Instant`s are `Nat` seconds with the current
time `now` passed in. -/

/-- `RepairState` from src/repair.rs lines 8-15. -/
inductive RepairState where
  | healthy : RepairState
  | checking : RepairState
  | broken : RepairState
  | repairing : RepairState
  | failed : RepairState
deriving DecidableEq, Repr

/-- `TorrentHealth` from src/repair.rs lines 17-25 (`failed_links` is a
`HashSet<String>`, modelled as a duplicate-free list in insertion order). -/
structure TorrentHealth where
  torrent_id : String
  state : RepairState
  failed_links : List String
  last_check : Nat
  repair_attempts : Nat
  last_repair_trigger : Option Nat
deriving DecidableEq, Repr

/-- The `health_status` map of `RepairManager`. -/
abbrev HealthMap : Type := List (String × TorrentHealth)

/-- `HashSet::insert` on the failed-links set. -/
def hsInsert (s : List String) (x : String) : List String :=
  if x ∈ s then s else s ++ [x]

/-- `RepairManager::should_hide_torrent` (src/repair.rs lines 357-365). -/
def shouldHideTorrent (m : HealthMap) (torrentId : String) : Bool :=
  match alGet m torrentId with
  | some h =>
      match h.state with
      | .broken => true
      | .repairing => true
      | .failed => true
      | _ => false
  | none => false

/-- `RepairManager::mark_broken` (src/repair.rs lines 376-395): insert or
overwrite the entry as `Broken`, preserving prior `repair_attempts`. -/
def markBroken (m : HealthMap) (torrentId failedLink : String) (now : Nat) :
    HealthMap :=
  let previousAttempts := ((alGet m torrentId).map (·.repair_attempts)).getD 0
  alInsert m torrentId
    { torrent_id := torrentId
      state := .broken
      failed_links := [failedLink]
      last_check := now
      repair_attempts := previousAttempts
      last_repair_trigger := none }

/-- First phase of `check_torrent_health` (src/repair.rs lines 49-94): under
one write lock, mark every torrent that is due for a check as `Checking`,
carrying over its previous `repair_attempts`. -/
def checkPhase1Step (now : Nat) (m : HealthMap) (tim : TorrentInfo × MediaMetadata) :
    HealthMap :=
  let ti := tim.1
  let shouldCheck : Bool :=
    match alGet m ti.id with
    | some h =>
        if h.state = .checking ∨ h.state = .repairing then false
        else if now - h.last_check < 300 ∧ h.state = .healthy then false
        else true
    | none => true
  if shouldCheck then
    let previousAttempts := ((alGet m ti.id).map (·.repair_attempts)).getD 0
    alInsert m ti.id
      { torrent_id := ti.id
        state := .checking
        failed_links := []
        last_check := now
        repair_attempts := previousAttempts
        last_repair_trigger := none }
  else m

def checkPhase1 (m : HealthMap) (torrents : List (TorrentInfo × MediaMetadata))
    (now : Nat) : HealthMap :=
  torrents.foldl (checkPhase1Step now) m

/-- The sampled link indices of `check_torrent_health` (src/repair.rs lines
117-127): first, middle and last link. -/
def sampleLinks (links : List String) : List String :=
  (List.range links.length).filterMap
    (fun idx =>
      if idx = 0 ∨ idx = links.length / 2 ∨ idx = links.length - 1 then
        links.get? idx
      else none)

/-- Second phase of `check_torrent_health` (src/repair.rs lines 96-166): for
every torrent still in `Checking`, probe the sampled links through the
debrid client (`linkOk` oracle) and settle the entry to `Broken` or
`Healthy`.  Returns the collected broken ids with the updated map. -/
def checkPhase2Step (linkOk : String → Bool) (now : Nat)
    (acc : List String × HealthMap) (tim : TorrentInfo × MediaMetadata) :
    List String × HealthMap :=
  let ti := tim.1
  let (broken, m) := acc
  let skip : Bool :=
    match alGet m ti.id with
    | some h => decide (h.state ≠ .checking)
    | none => false
  if skip then (broken, m)
  else
    let failed := (sampleLinks ti.links).filter (fun l => ¬ linkOk l)
    let failedSet := failed.foldl hsInsert []
    if failed ≠ [] then
      (broken ++ [ti.id],
        match alGet m ti.id with
        | some h =>
            alInsert m ti.id
              { h with state := .broken, failed_links := failedSet,
                       last_check := now }
        | none => m)
    else
      (broken,
        match alGet m ti.id with
        | some h =>
            alInsert m ti.id
              { h with state := .healthy, failed_links := [],
                       last_check := now }
        | none => m)

def checkPhase2 (m : HealthMap) (torrents : List (TorrentInfo × MediaMetadata))
    (linkOk : String → Bool) (now : Nat) : List String × HealthMap :=
  torrents.foldl (checkPhase2Step linkOk now) ([], m)

/-- `RepairManager::check_torrent_health` (src/repair.rs lines 46-174):
mark due torrents `Checking`, then sample their links and settle each to
`Broken` or `Healthy`. -/
def checkTorrentHealth (m : HealthMap) (torrents : List (TorrentInfo × MediaMetadata))
    (linkOk : String → Bool) (now : Nat) : List String × HealthMap :=
  checkPhase2 (checkPhase1 m torrents now) torrents linkOk now

/-- Outcome of the remote calls made by one `repair_torrent` run
(`add_magnet`, `get_torrent_info`, `select_files`, `delete_torrent`), each an
`Except` carrying the remote error text.  `delete` failures are only logged
by the source and do not influence the health map. -/
structure RepairOutcome where
  addMagnet : Except String AddMagnetResponse
  newInfo : Except String TorrentInfo
  selectOk : Except String Unit
  deleteOk : Except String Unit
deriving Repr

/-- The write-lock mutation on a sub-step failure (src/repair.rs error arms:
`if let Some(health) = health_map.get_mut(id) { health.state = Failed }`). -/
def setFailed (m : HealthMap) (torrentId : String) : HealthMap :=
  match alGet m torrentId with
  | some h => alInsert m torrentId { h with state := .failed }
  | none => m

/-- The matched file-id strings of step 4 of `repair_torrent`
(src/repair.rs lines 271-280): selected original files paired with the new
info's files by equal path. -/
def selectedFileIds (info newInfo : TorrentInfo) : List String :=
  (info.files.filter (fun f => f.selected = 1)).filterMap
    (fun original =>
      (newInfo.files.find? (fun nf => nf.path = original.path)).map
        (fun nf => toString nf.id))

/-- Steps 1-5 of `repair_torrent` (src/repair.rs lines 247-354), entered
after the health entry was set to `Repairing`. -/
def repairTorrentSteps (m : HealthMap) (info : TorrentInfo) (now : Nat)
    (oc : RepairOutcome) : Except String Unit × HealthMap :=
  match oc.addMagnet with
  | .error e => (.error ("Failed to add magnet: " ++ e), setFailed m info.id)
  | .ok addResponse =>
      match oc.newInfo with
      | .error e =>
          (.error ("Failed to get torrent info: " ++ e), setFailed m info.id)
      | .ok newInfo =>
          let fileIds := selectedFileIds info newInfo
          if fileIds ≠ [] then
            match oc.selectOk with
            | .ok _ =>
                let m := alRemove m info.id
                let m :=
                  alInsert m addResponse.id
                    { torrent_id := addResponse.id
                      state := .healthy
                      failed_links := []
                      last_check := now
                      repair_attempts := 0
                      last_repair_trigger := none }
                (.ok (), m)
            | .error e =>
                (.error ("Failed to select files: " ++ e), setFailed m info.id)
          else (.error "No matching files found", setFailed m info.id)

/-- The write-lock attempt accounting of `repair_torrent`
(src/repair.rs lines 209-243). -/
def repairTorrentLocked (m : HealthMap) (info : TorrentInfo) (now : Nat)
    (oc : RepairOutcome) : Except String Unit × HealthMap :=
  match alGet m info.id with
  | some h =>
      if 3 ≤ h.repair_attempts then
        (.error "Maximum repair attempts exceeded",
          alInsert m info.id { h with state := .failed })
      else if h.state = .repairing then (.error "Repair already in progress", m)
      else
        repairTorrentSteps
          (alInsert m info.id
            { h with state := .repairing,
                     repair_attempts := h.repair_attempts + 1,
                     last_repair_trigger := some now })
          info now oc
  | none =>
      repairTorrentSteps
        (alInsert m info.id
          { torrent_id := info.id
            state := .repairing
            failed_links := []
            last_check := now
            repair_attempts := 1
            last_repair_trigger := some now })
        info now oc

/-- `RepairManager::repair_torrent` (src/repair.rs lines 177-355). -/
def repairTorrent (m : HealthMap) (info : TorrentInfo) (now : Nat)
    (oc : RepairOutcome) : Except String Unit × HealthMap :=
  match alGet m info.id with
  | some h =>
      if h.state = .failed then (.error "Torrent permanently failed", m)
      else if h.state = .repairing then (.error "Repair already in progress", m)
      else if (match h.last_repair_trigger with
               | some t => decide (now - t < 30)
               | none => false) then
        (.error "Repair rate limited", m)
      else repairTorrentLocked m info now oc
  | none => repairTorrentLocked m info now oc

/-- One of the repair sub-steps of `repair_torrent` fails for this outcome
(every such arm sets the old entry to `Failed` in the source). -/
def outcomeFails (info : TorrentInfo) (oc : RepairOutcome) : Bool :=
  match oc.addMagnet with
  | .error _ => true
  | .ok _ =>
      match oc.newInfo with
      | .error _ => true
      | .ok newInfo =>
          if selectedFileIds info newInfo ≠ [] then
            match oc.selectOk with
            | .ok _ => false
            | .error _ => true
          else true

/-! ### Repair-attempt monotonicity machinery -/

/-- Every entry survives from `m` to `m'` with a repair-attempt count that
did not decrease. -/
def AttemptsPreserved (m m' : HealthMap) : Prop :=
  ∀ id h, alGet m id = some h →
    ∃ h', alGet m' id = some h' ∧ h.repair_attempts ≤ h'.repair_attempts

theorem attemptsPreserved_refl (m : HealthMap) : AttemptsPreserved m m :=
  fun _ h hget => ⟨h, hget, le_refl _⟩

theorem attemptsPreserved_trans {m1 m2 m3 : HealthMap}
    (h12 : AttemptsPreserved m1 m2) (h23 : AttemptsPreserved m2 m3) :
    AttemptsPreserved m1 m3 := by
  intro id h hget
  obtain ⟨h', hget', hle'⟩ := h12 id h hget
  obtain ⟨h'', hget'', hle''⟩ := h23 id h' hget'
  exact ⟨h'', hget'', le_trans hle' hle''⟩

theorem attemptsPreserved_insert (m : HealthMap) (k : String) (v : TorrentHealth)
    (hv : ∀ hk, alGet m k = some hk → hk.repair_attempts ≤ v.repair_attempts) :
    AttemptsPreserved m (alInsert m k v) := by
  intro id h hget
  rw [alGet_alInsert]
  by_cases hk : k = id
  · subst hk
    exact ⟨v, by simp, hv h hget⟩
  · exact ⟨h, by simp [hk, hget], le_refl _⟩

theorem attemptsPreserved_markBroken (m : HealthMap) (id link : String) (now : Nat) :
    AttemptsPreserved m (markBroken m id link now) := by
  unfold markBroken
  apply attemptsPreserved_insert
  intro hk hget
  simp [hget]

theorem attemptsPreserved_checkPhase1Step (now : Nat) (m : HealthMap)
    (tim : TorrentInfo × MediaMetadata) :
    AttemptsPreserved m (checkPhase1Step now m tim) := by
  unfold checkPhase1Step
  dsimp only
  split
  · apply attemptsPreserved_insert
    intro hk hget
    simp [hget]
  · exact attemptsPreserved_refl m

theorem attemptsPreserved_foldl {β : Type} (f : HealthMap → β → HealthMap)
    (hf : ∀ m x, AttemptsPreserved m (f m x)) (l : List β) (m : HealthMap) :
    AttemptsPreserved m (l.foldl f m) := by
  induction l generalizing m with
  | nil => exact attemptsPreserved_refl m
  | cons x rest ih =>
      exact attemptsPreserved_trans (hf m x) (ih (f m x))

theorem attemptsPreserved_checkPhase1 (m : HealthMap)
    (torrents : List (TorrentInfo × MediaMetadata)) (now : Nat) :
    AttemptsPreserved m (checkPhase1 m torrents now) :=
  attemptsPreserved_foldl _ (attemptsPreserved_checkPhase1Step now) torrents m

theorem attemptsPreserved_checkPhase2Step (linkOk : String → Bool) (now : Nat)
    (acc : List String × HealthMap) (tim : TorrentInfo × MediaMetadata) :
    AttemptsPreserved acc.2 (checkPhase2Step linkOk now acc tim).2 := by
  obtain ⟨broken, m⟩ := acc
  unfold checkPhase2Step
  dsimp only
  split
  · exact attemptsPreserved_refl m
  · split
    · dsimp only
      split
      · next h0 heq =>
          apply attemptsPreserved_insert
          intro hk hget
          rw [heq] at hget
          cases hget
          exact le_refl _
      · exact attemptsPreserved_refl m
    · dsimp only
      split
      · next h0 heq =>
          apply attemptsPreserved_insert
          intro hk hget
          rw [heq] at hget
          cases hget
          exact le_refl _
      · exact attemptsPreserved_refl m

theorem attemptsPreserved_checkPhase2 (m : HealthMap)
    (torrents : List (TorrentInfo × MediaMetadata)) (linkOk : String → Bool)
    (now : Nat) :
    AttemptsPreserved m (checkPhase2 m torrents linkOk now).2 := by
  unfold checkPhase2
  suffices h : ∀ (l : List (TorrentInfo × MediaMetadata))
      (acc : List String × HealthMap),
      AttemptsPreserved acc.2 (l.foldl (checkPhase2Step linkOk now) acc).2 by
    exact h torrents ([], m)
  intro l
  induction l with
  | nil => intro acc; exact attemptsPreserved_refl _
  | cons x rest ih =>
      intro acc
      exact attemptsPreserved_trans (attemptsPreserved_checkPhase2Step linkOk now acc x)
        (ih _)

theorem attemptsPreserved_checkTorrentHealth (m : HealthMap)
    (torrents : List (TorrentInfo × MediaMetadata)) (linkOk : String → Bool)
    (now : Nat) :
    AttemptsPreserved m (checkTorrentHealth m torrents linkOk now).2 :=
  attemptsPreserved_trans (attemptsPreserved_checkPhase1 m torrents now)
    (attemptsPreserved_checkPhase2 _ torrents linkOk now)

theorem alGet_setFailed (m : HealthMap) (k id : String) :
    alGet (setFailed m k) id =
      if k = id then (alGet m k).map (fun h => { h with state := .failed })
      else alGet m id := by
  unfold setFailed
  split
  · next h heq =>
      rw [alGet_alInsert]
      by_cases hk : k = id
      · subst hk; simp [heq]
      · simp [hk]
  · next heq =>
      by_cases hk : k = id
      · subst hk; simp [heq]
      · simp [hk]

/-- Attempt accounting of `repair_torrent`'s remote steps: the attempt count
of every surviving entry does not decrease, except the `Healthy` entry a
successful repair installs under the new torrent id with its count reset
to 0. -/
theorem repairTorrentSteps_attempts (m : HealthMap) (info : TorrentInfo)
    (now : Nat) (oc : RepairOutcome) (id : String) (h h' : TorrentHealth)
    (hpre : alGet m id = some h)
    (hpost : alGet (repairTorrentSteps m info now oc).2 id = some h') :
    h.repair_attempts ≤ h'.repair_attempts ∨
      (outcomeFails info oc = false ∧ h'.repair_attempts = 0) := by
  have setFailedCase : ∀ m0 : HealthMap, alGet m0 id = some h →
      alGet (setFailed m0 info.id) id = some h' →
      h.repair_attempts ≤ h'.repair_attempts := by
    intro m0 hpre0 hpost0
    rw [alGet_setFailed] at hpost0
    by_cases hk : info.id = id
    · subst hk
      rw [if_pos rfl, hpre0, Option.map_some'] at hpost0
      cases hpost0
      exact le_refl _
    · rw [if_neg hk, hpre0] at hpost0
      cases hpost0
      exact le_refl _
  obtain ⟨mag, ninfo, sel, del⟩ := oc
  rcases mag with e | addResponse
  · simp only [repairTorrentSteps] at hpost
    exact Or.inl (setFailedCase m hpre hpost)
  · rcases ninfo with e | newInfo
    · simp only [repairTorrentSteps] at hpost
      exact Or.inl (setFailedCase m hpre hpost)
    · by_cases hids : selectedFileIds info newInfo = []
      · simp only [repairTorrentSteps, hids, ne_eq, not_true_eq_false,
          if_false] at hpost
        exact Or.inl (setFailedCase m hpre hpost)
      · rcases sel with e | u
        · simp only [repairTorrentSteps, ne_eq, hids, not_false_eq_true,
            if_true] at hpost
          exact Or.inl (setFailedCase m hpre hpost)
        · simp only [repairTorrentSteps, ne_eq, hids, not_false_eq_true,
            if_true] at hpost
          rw [alGet_alInsert] at hpost
          by_cases hnew : addResponse.id = id
          · rw [if_pos hnew] at hpost
            cases hpost
            refine Or.inr ⟨?_, rfl⟩
            simp [outcomeFails, hids]
          · rw [if_neg hnew, alGet_alRemove] at hpost
            by_cases hold : info.id = id
            · rw [if_pos hold] at hpost
              cases hpost
            · rw [if_neg hold, hpre] at hpost
              cases hpost
              exact Or.inl (le_refl _)

/-- Attempt accounting of the write-lock section of `repair_torrent`. -/
theorem repairTorrentLocked_attempts (m : HealthMap) (info : TorrentInfo)
    (now : Nat) (oc : RepairOutcome) (id : String) (h h' : TorrentHealth)
    (hpre : alGet m id = some h)
    (hpost : alGet (repairTorrentLocked m info now oc).2 id = some h') :
    h.repair_attempts ≤ h'.repair_attempts ∨
      (outcomeFails info oc = false ∧ h'.repair_attempts = 0) := by
  rcases hm : alGet m info.id with _ | h0
  · simp only [repairTorrentLocked, hm] at hpost
    have hk : ¬ info.id = id := by
      intro e
      rw [e, hpre] at hm
      cases hm
    have hpre1 :
        alGet (alInsert m info.id
          { torrent_id := info.id, state := .repairing, failed_links := [],
            last_check := now, repair_attempts := 1,
            last_repair_trigger := some now }) id = some h := by
      rw [alGet_alInsert, if_neg hk]
      exact hpre
    exact repairTorrentSteps_attempts _ info now oc id h h' hpre1 hpost
  · simp only [repairTorrentLocked, hm] at hpost
    by_cases h3 : 3 ≤ h0.repair_attempts
    · rw [if_pos h3] at hpost
      dsimp only at hpost
      rw [alGet_alInsert] at hpost
      by_cases hk : info.id = id
      · subst hk
        rw [if_pos rfl] at hpost
        rw [hpre] at hm
        cases hm
        cases hpost
        exact Or.inl (le_refl _)
      · rw [if_neg hk, hpre] at hpost
        cases hpost
        exact Or.inl (le_refl _)
    · rw [if_neg h3] at hpost
      by_cases hrep : h0.state = .repairing
      · rw [if_pos hrep] at hpost
        dsimp only at hpost
        rw [hpre] at hpost
        cases hpost
        exact Or.inl (le_refl _)
      · rw [if_neg hrep] at hpost
        by_cases hk : info.id = id
        · subst hk
          rw [hpre] at hm
          cases hm
          have hpre1 :
              alGet (alInsert m info.id
                { h with state := .repairing,
                         repair_attempts := h.repair_attempts + 1,
                         last_repair_trigger := some now }) info.id =
                some { h with state := .repairing,
                              repair_attempts := h.repair_attempts + 1,
                              last_repair_trigger := some now } := by
            rw [alGet_alInsert, if_pos rfl]
          rcases repairTorrentSteps_attempts _ info now oc info.id _ h' hpre1 hpost
            with hle | hr
          · exact Or.inl (le_trans (Nat.le_succ _) hle)
          · exact Or.inr hr
        · have hpre1 :
              alGet (alInsert m info.id
                { h0 with state := .repairing,
                          repair_attempts := h0.repair_attempts + 1,
                          last_repair_trigger := some now }) id = some h := by
            rw [alGet_alInsert, if_neg hk]
            exact hpre
          exact repairTorrentSteps_attempts _ info now oc id h h' hpre1 hpost

/-- Attempt accounting of `repair_torrent` as a whole. -/
theorem repairTorrent_attempts (m : HealthMap) (info : TorrentInfo)
    (now : Nat) (oc : RepairOutcome) (id : String) (h h' : TorrentHealth)
    (hpre : alGet m id = some h)
    (hpost : alGet (repairTorrent m info now oc).2 id = some h') :
    h.repair_attempts ≤ h'.repair_attempts ∨
      (outcomeFails info oc = false ∧ h'.repair_attempts = 0) := by
  rcases hm : alGet m info.id with _ | h0
  · simp only [repairTorrent, hm] at hpost
    exact repairTorrentLocked_attempts m info now oc id h h' hpre hpost
  · simp only [repairTorrent, hm] at hpost
    by_cases hf : h0.state = .failed
    · rw [if_pos hf] at hpost
      dsimp only at hpost
      rw [hpre] at hpost
      cases hpost
      exact Or.inl (le_refl _)
    · rw [if_neg hf] at hpost
      by_cases hrep : h0.state = .repairing
      · rw [if_pos hrep] at hpost
        dsimp only at hpost
        rw [hpre] at hpost
        cases hpost
        exact Or.inl (le_refl _)
      · rw [if_neg hrep] at hpost
        by_cases hrl : (match h0.last_repair_trigger with
                        | some t => decide (now - t < 30)
                        | none => false) = true
        · rw [if_pos hrl] at hpost
          dsimp only at hpost
          rw [hpre] at hpost
          cases hpost
          exact Or.inl (le_refl _)
        · rw [if_neg hrl] at hpost
          exact repairTorrentLocked_attempts m info now oc id h h' hpre hpost

/-- A `Failed` entry left under the old torrent id by the remote steps of
`repair_torrent` can only come from a failing sub-step. -/
theorem repairTorrentSteps_failed_char (m : HealthMap) (info : TorrentInfo)
    (now : Nat) (oc : RepairOutcome) (h' : TorrentHealth)
    (hpost : alGet (repairTorrentSteps m info now oc).2 info.id = some h')
    (hpf : h'.state = .failed) :
    outcomeFails info oc = true := by
  obtain ⟨mag, ninfo, sel, del⟩ := oc
  rcases mag with e | addResponse
  · simp [outcomeFails]
  · rcases ninfo with e | newInfo
    · simp [outcomeFails]
    · by_cases hids : selectedFileIds info newInfo = []
      · simp [outcomeFails, hids]
      · rcases sel with e | u
        · simp [outcomeFails, hids]
        · exfalso
          simp only [repairTorrentSteps, ne_eq, hids, not_false_eq_true,
            if_true] at hpost
          rw [alGet_alInsert] at hpost
          by_cases hnew : addResponse.id = info.id
          · rw [if_pos hnew] at hpost
            cases hpost
            cases hpf
          · rw [if_neg hnew, alGet_alRemove, if_pos rfl] at hpost
            cases hpost

/-- A transition of the entry at `info.id` into `Failed` during
`repair_torrent` happens only when the attempt count was already ≥ 3 at
entry, or a repair sub-step failed. -/
theorem repairTorrent_failed_only_if (m : HealthMap) (info : TorrentInfo)
    (now : Nat) (oc : RepairOutcome) (h h' : TorrentHealth)
    (hpre : alGet m info.id = some h)
    (hpost : alGet (repairTorrent m info now oc).2 info.id = some h')
    (hnf : h.state ≠ .failed) (hpf : h'.state = .failed) :
    3 ≤ h.repair_attempts ∨ outcomeFails info oc = true := by
  simp only [repairTorrent, hpre] at hpost
  rw [if_neg hnf] at hpost
  by_cases hrep : h.state = .repairing
  · rw [if_pos hrep] at hpost
    dsimp only at hpost
    rw [hpre] at hpost
    cases hpost
    exact absurd hpf hnf
  · rw [if_neg hrep] at hpost
    by_cases hrl : (match h.last_repair_trigger with
                    | some t => decide (now - t < 30)
                    | none => false) = true
    · rw [if_pos hrl] at hpost
      dsimp only at hpost
      rw [hpre] at hpost
      cases hpost
      exact absurd hpf hnf
    · rw [if_neg hrl] at hpost
      simp only [repairTorrentLocked, hpre] at hpost
      by_cases h3 : 3 ≤ h.repair_attempts
      · exact Or.inl h3
      · rw [if_neg h3, if_neg hrep] at hpost
        exact Or.inr (repairTorrentSteps_failed_char _ info now oc h' hpost hpf)

/-- Entering `repair_torrent` with `repair_attempts ≥ 3` (and no other
refusal applying) transitions the entry to `Failed` and returns the
"maximum attempts" error. -/
theorem repairTorrent_failed_if (m : HealthMap) (info : TorrentInfo)
    (now : Nat) (oc : RepairOutcome) (h : TorrentHealth)
    (hpre : alGet m info.id = some h)
    (hnf : h.state ≠ .failed) (hnr : h.state ≠ .repairing)
    (hrl : ∀ t, h.last_repair_trigger = some t → 30 ≤ now - t)
    (h3 : 3 ≤ h.repair_attempts) :
    (repairTorrent m info now oc).1 = .error "Maximum repair attempts exceeded" ∧
      alGet (repairTorrent m info now oc).2 info.id =
        some { h with state := .failed } := by
  have hmatch : (match h.last_repair_trigger with
                 | some t => decide (now - t < 30)
                 | none => false) = false := by
    rcases htr : h.last_repair_trigger with _ | t
    · rfl
    · simp only [decide_eq_false_iff_not, not_lt]
      exact hrl t htr
  simp only [repairTorrent, hpre, if_neg hnf, if_neg hnr, hmatch,
    Bool.false_eq_true, if_false, repairTorrentLocked, if_pos h3]
  refine ⟨trivial, ?_⟩
  rw [alGet_alInsert, if_pos rfl]

/-! ### Checking-state lemmas (claim C9) -/

/-- `update_vfs` filtering from src/tasks.rs lines 186-191: drop the pairs the
repair manager currently hides before rebuilding the VFS. -/
def filterVisible (m : HealthMap) (currentData : List (TorrentInfo × MediaMetadata)) :
    List (TorrentInfo × MediaMetadata) :=
  currentData.filter (fun tm => ! shouldHideTorrent m tm.1.id)

theorem shouldHide_of_checking (m : HealthMap) (id : String) (h : TorrentHealth)
    (hget : alGet m id = some h) (hc : h.state = .checking) :
    shouldHideTorrent m id = false := by
  unfold shouldHideTorrent
  rw [hget]
  dsimp only
  rw [hc]

theorem checkPhase1Step_skip (now : Nat) (m : HealthMap)
    (tim : TorrentInfo × MediaMetadata) (h0 : TorrentHealth)
    (hget : alGet m tim.1.id = some h0)
    (hst : h0.state = .checking ∨ h0.state = .repairing) :
    checkPhase1Step now m tim = m := by
  unfold checkPhase1Step
  simp only [hget, if_pos hst, Bool.false_eq_true, if_false]

theorem checkPhase1Step_get (now : Nat) (m : HealthMap)
    (tim : TorrentInfo × MediaMetadata) (id : String) :
    alGet (checkPhase1Step now m tim) id = alGet m id ∨
      ∃ v, alGet (checkPhase1Step now m tim) id = some v ∧ v.state = .checking := by
  unfold checkPhase1Step
  dsimp only
  split
  · by_cases hk : tim.1.id = id
    · refine Or.inr (Exists.intro { torrent_id := tim.1.id, state := .checking, failed_links := [], last_check := now, repair_attempts := ((alGet m tim.1.id).map (·.repair_attempts)).getD 0, last_repair_trigger := none } ⟨?_, rfl⟩)
      rw [alGet_alInsert, if_pos hk]
    · left
      rw [alGet_alInsert, if_neg hk]
  · left; rfl

theorem checkPhase1Step_preserves_checking (now : Nat) (m : HealthMap)
    (tim : TorrentInfo × MediaMetadata) (id : String) (h : TorrentHealth)
    (hget : alGet m id = some h) (hc : h.state = .checking) :
    alGet (checkPhase1Step now m tim) id = some h := by
  by_cases hk : tim.1.id = id
  · rw [checkPhase1Step_skip now m tim h (by rw [hk]; exact hget) (Or.inl hc)]
    exact hget
  · unfold checkPhase1Step
    dsimp only
    split
    · rw [alGet_alInsert, if_neg hk]; exact hget
    · exact hget

theorem checkPhase1_fold_preserves_checking (l : List (TorrentInfo × MediaMetadata))
    (now : Nat) (m : HealthMap) (id : String) (h : TorrentHealth)
    (hget : alGet m id = some h) (hc : h.state = .checking) :
    alGet (l.foldl (checkPhase1Step now) m) id = some h := by
  induction l generalizing m with
  | nil => exact hget
  | cons hd tl ih =>
      exact ih _ (checkPhase1Step_preserves_checking now m hd id h hget hc)

/-- A torrent with no prior health entry gets a `Checking` entry from the
first phase of `check_torrent_health`. -/
theorem checkPhase1_marks_checking (l : List (TorrentInfo × MediaMetadata))
    (m : HealthMap) (now : Nat) (ti : TorrentInfo) (md : MediaMetadata)
    (hmem : (ti, md) ∈ l)
    (hpre : alGet m ti.id = none ∨
      ∃ h, alGet m ti.id = some h ∧ h.state = .checking) :
    ∃ h', alGet (checkPhase1 m l now) ti.id = some h' ∧ h'.state = .checking := by
  unfold checkPhase1
  induction l generalizing m with
  | nil => cases hmem
  | cons hd tl ih =>
      rw [List.foldl_cons]
      rcases List.mem_cons.mp hmem with heq | hmem'
      · have hid : hd.1.id = ti.id := by rw [← heq]
        rcases hpre with hnone | ⟨h, hget, hc⟩
        · have hgot : ∃ v, alGet (checkPhase1Step now m hd) ti.id = some v ∧
              v.state = .checking := by
            unfold checkPhase1Step
            dsimp only
            rw [hid, hnone]
            dsimp only
            rw [if_pos rfl]
            refine Exists.intro { torrent_id := ti.id, state := .checking, failed_links := [], last_check := now, repair_attempts := 0, last_repair_trigger := none } ⟨?_, rfl⟩
            rw [alGet_alInsert, if_pos rfl]
            rfl
          obtain ⟨v, hv, hvc⟩ := hgot
          exact ⟨v, checkPhase1_fold_preserves_checking tl now _ ti.id v hv hvc, hvc⟩
        · have hstep := checkPhase1Step_preserves_checking now m hd ti.id h hget hc
          exact ⟨h, checkPhase1_fold_preserves_checking tl now _ ti.id h hstep hc, hc⟩
      · rcases checkPhase1Step_get now m hd ti.id with hsame | ⟨v, hv, hvc⟩
        · exact ih _ hmem' (by rw [hsame]; exact hpre)
        · exact ih _ hmem' (Or.inr ⟨v, hv, hvc⟩)

/-- **C9.** The repair manager has a fifth state `Checking` beyond the
spec's four: `check_torrent_health`'s first phase places a previously
untracked torrent into `Checking` while its links are being sampled,
`should_hide_torrent` answers `false` for a `Checking` entry, and therefore
such a torrent survives the `update_vfs` visibility filter of the next VFS
rebuild. -/
theorem c9_checking_stays_visible :
    (∀ (m : HealthMap) (id : String) (h : TorrentHealth),
        alGet m id = some h → h.state = .checking →
        shouldHideTorrent m id = false) ∧
    (∀ (l : List (TorrentInfo × MediaMetadata)) (m : HealthMap) (now : Nat)
        (ti : TorrentInfo) (md : MediaMetadata),
        (ti, md) ∈ l → alGet m ti.id = none →
        ∃ h', alGet (checkPhase1 m l now) ti.id = some h' ∧
          h'.state = .checking ∧
          shouldHideTorrent (checkPhase1 m l now) ti.id = false) ∧
    (∀ (m : HealthMap) (data : List (TorrentInfo × MediaMetadata))
        (ti : TorrentInfo) (md : MediaMetadata),
        (ti, md) ∈ data → shouldHideTorrent m ti.id = false →
        (ti, md) ∈ filterVisible m data) := by
  refine ⟨shouldHide_of_checking, ?_, ?_⟩
  · intro l m now ti md hmem hnone
    obtain ⟨h', hget, hc⟩ :=
      checkPhase1_marks_checking l m now ti md hmem (Or.inl hnone)
    exact ⟨h', hget, hc, shouldHide_of_checking _ _ _ hget hc⟩
  · intro m data ti md hmem hvis
    unfold filterVisible
    rw [List.mem_filter]
    exact ⟨hmem, by rw [hvis]; rfl⟩

/-- Concrete torrent used by the C9 witness. -/
def c9Torrent : TorrentInfo :=
  { id := "tor9", filename := "Some.Show.S01E01.mkv", hash := "deadbeef"
    bytes := 700, status := "downloaded"
    files := [{ id := 1, path := "/Some.Show.S01E01.mkv", bytes := 700, selected := 1 }]
    links := ["https://real-debrid.example/l1"] }

/-- Concrete metadata used by the C9 witness. -/
def c9Meta : MediaMetadata :=
  { title := "Some Show", year := some "2020", media_type := .show,
    external_id := some "tmdb:1" }

/-- Witness for C9: starting from an empty health map, after phase 1 of a
health check the torrent is `Checking`, not hidden, and survives the
rebuild filter. -/
theorem c9_checking_stays_visible_witness :
    shouldHideTorrent (checkPhase1 [] [(c9Torrent, c9Meta)] 7) c9Torrent.id = false ∧
    (c9Torrent, c9Meta) ∈
      filterVisible (checkPhase1 [] [(c9Torrent, c9Meta)] 7) [(c9Torrent, c9Meta)] := by
  obtain ⟨h', hget, hc, hvis⟩ :=
    c9_checking_stays_visible.2.1 [(c9Torrent, c9Meta)] [] 7 c9Torrent c9Meta
      (List.mem_singleton.mpr rfl) rfl
  exact ⟨hvis,
    c9_checking_stays_visible.2.2 _ [(c9Torrent, c9Meta)] c9Torrent c9Meta
      (List.mem_singleton.mpr rfl) hvis⟩

/-- **C2 (amended).** Per torrent id, `repair_attempts` never decreases
across `mark_broken`, `check_torrent_health` and `repair_torrent` — except
that a successful repair removes the old id's entry and installs a fresh
`Healthy` entry (attempts 0) under the new torrent id.  An entry transitions
to `Failed` inside `repair_torrent` when `repair_attempts ≥ 3` at entry, or
when any repair sub-step fails; conversely, entering with attempts ≥ 3 (and
no refusal applying) always produces the `Failed` transition. -/
theorem c2_repair_attempts_failed :
    (∀ (m : HealthMap) (id link : String) (now : Nat),
        AttemptsPreserved m (markBroken m id link now)) ∧
    (∀ (m : HealthMap) (torrents : List (TorrentInfo × MediaMetadata))
        (linkOk : String → Bool) (now : Nat),
        AttemptsPreserved m (checkTorrentHealth m torrents linkOk now).2) ∧
    (∀ (m : HealthMap) (info : TorrentInfo) (now : Nat) (oc : RepairOutcome)
        (id : String) (h h' : TorrentHealth),
        alGet m id = some h →
        alGet (repairTorrent m info now oc).2 id = some h' →
        h.repair_attempts ≤ h'.repair_attempts ∨
          (outcomeFails info oc = false ∧ h'.repair_attempts = 0)) ∧
    (∀ (m : HealthMap) (info : TorrentInfo) (now : Nat) (oc : RepairOutcome)
        (h h' : TorrentHealth),
        alGet m info.id = some h →
        alGet (repairTorrent m info now oc).2 info.id = some h' →
        h.state ≠ .failed → h'.state = .failed →
        3 ≤ h.repair_attempts ∨ outcomeFails info oc = true) ∧
    (∀ (m : HealthMap) (info : TorrentInfo) (now : Nat) (oc : RepairOutcome)
        (h : TorrentHealth),
        alGet m info.id = some h →
        h.state ≠ .failed → h.state ≠ .repairing →
        (∀ t, h.last_repair_trigger = some t → 30 ≤ now - t) →
        3 ≤ h.repair_attempts →
        (repairTorrent m info now oc).1 =
            .error "Maximum repair attempts exceeded" ∧
          alGet (repairTorrent m info now oc).2 info.id =
            some { h with state := .failed }) :=
  ⟨fun m id link now => attemptsPreserved_markBroken m id link now,
    fun m ts linkOk now => attemptsPreserved_checkTorrentHealth m ts linkOk now,
    fun m info now oc id h h' h1 h2 => repairTorrent_attempts m info now oc id h h' h1 h2,
    fun m info now oc h h' h1 h2 h3 h4 =>
      repairTorrent_failed_only_if m info now oc h h' h1 h2 h3 h4,
    fun m info now oc h h1 h2 h3 h4 h5 =>
      repairTorrent_failed_if m info now oc h h1 h2 h3 h4 h5⟩

/-- Concrete inputs for the C2 counterexample and witness. -/
def c2Health0 : TorrentHealth :=
  { torrent_id := "t1", state := .broken, failed_links := [], last_check := 0,
    repair_attempts := 0, last_repair_trigger := none }

def c2Info : TorrentInfo :=
  { id := "t1", filename := "X.mkv", hash := "abc", bytes := 1000,
    status := "downloaded", files := [], links := [] }

def c2Outcome : RepairOutcome :=
  { addMagnet := .error "503 Service Unavailable", newInfo := .error "unused",
    selectOk := .ok (), deleteOk := .ok () }

/-- **C2 counterexample.** "Transitions to `Failed` happen iff attempts ≥ 3
at entry" is false: a first repair attempt (0 prior attempts, hence < 3 at
entry) whose `add_magnet` call fails leaves the entry `Failed`. -/
theorem c2_counterexample :
    ((alGet [("t1", c2Health0)] "t1").map (·.repair_attempts)) = some 0 ∧
    ¬ (3 ≤ 0) ∧
    ((alGet (repairTorrent [("t1", c2Health0)] c2Info 100 c2Outcome).2 "t1").map
        (·.state)) = some .failed := by
  refine ⟨rfl, by omega, rfl⟩

/-- Entry with three prior failed attempts, for the C2 witness. -/
def c2wHealth : TorrentHealth :=
  { torrent_id := "t2", state := .broken, failed_links := ["l"], last_check := 0,
    repair_attempts := 3, last_repair_trigger := none }

def c2wInfo : TorrentInfo :=
  { id := "t2", filename := "Y.mkv", hash := "cafe", bytes := 9,
    status := "downloaded", files := [], links := [] }

/-- Witness for C2: entering `repair_torrent` with 3 attempts on a `Broken`
entry is refused with the maximum-attempts error and the entry is `Failed`. -/
theorem c2_repair_attempts_failed_witness :
    (repairTorrent [("t2", c2wHealth)] c2wInfo 50 c2Outcome).1 =
        .error "Maximum repair attempts exceeded" ∧
      alGet (repairTorrent [("t2", c2wHealth)] c2wInfo 50 c2Outcome).2 c2wInfo.id =
        some { c2wHealth with state := .failed } :=
  c2_repair_attempts_failed.2.2.2.2 [("t2", c2wHealth)] c2wInfo 50 c2Outcome
    c2wHealth rfl (by decide) (by decide) (by intro t ht; cases ht) (by decide)

/-! ## §3 Identification engine (src/identification.rs)

Regexes are embedded as executable matchers over lowercased character
lists (all the regexes at play are `(?i)` case-insensitive).  Rust's
Unicode-aware `char::is_alphanumeric` / `to_lowercase` / `\s` are modelled
by their ASCII restrictions (`Char.isAlphanum`, `Char.toLower`,
`Char.isWhitespace`), which agree on every character these claims
exercise. -/

/-- `VIDEO_EXTENSIONS` from src/vfs.rs. -/
def VIDEO_EXTENSIONS : List String :=
  [".mkv", ".mp4", ".avi", ".m4v", ".mov", ".wmv", ".flv", ".ts", ".m2ts"]

/-- Lowercase a string (Rust `str::to_lowercase`, ASCII fragment). -/
def strLower (s : String) : String := String.mk (s.data.map Char.toLower)

/-- Substring containment (Rust `str::contains`). -/
def strContains (s pat : String) : Bool := decide (pat.data <:+: s.data)

/-- Suffix test (Rust `str::ends_with`). -/
def strEndsWith (s pat : String) : Bool := decide (pat.data <:+ s.data)

/-- Split a character list on a separator (Rust `str::split(c)`). -/
def splitOnChar (c : Char) (l : List Char) : List (List Char) :=
  match l with
  | [] => [[]]
  | x :: rest =>
      let r := splitOnChar c rest
      if x = c then [] :: r
      else
        match r with
        | head :: tail => (x :: head) :: tail
        | [] => [[x]]

/-- Last path component: `path.split('/').next_back().unwrap_or(path)`
(the split is never empty, so the fallback never fires). -/
def lastComponent (s : String) : String :=
  String.mk (((splitOnChar '/' s.data).getLast? ).getD s.data)

/-- `is_video_file` from src/vfs.rs lines 404-412. -/
def isVideoFile (path : String) : Bool :=
  let lower := strLower path
  let filename := lastComponent lower
  if strContains filename "sample" || strContains filename "trailer" ||
      strContains filename "extra" || strContains filename "bonus" ||
      strContains filename "featurette" then
    false
  else VIDEO_EXTENSIONS.any (fun ext => strEndsWith lower ext)

/-- Drop a literal pattern from the front of a character list, returning the
rest on success. -/
def dropLit : List Char → List Char → Option (List Char)
  | [], l => some l
  | _, [] => none
  | p :: ps, c :: cs => if c = p then dropLit ps cs else none

/-- Drop leading whitespace (regex `\s*`). -/
def dropWs : List Char → List Char
  | [] => []
  | c :: rest => if c.isWhitespace then dropWs rest else c :: rest

/-- Match `word\s*\d` at the head of a lowercased character list. -/
def matchWordNum (w : String) (l : List Char) : Bool :=
  match dropLit w.data l with
  | some rest =>
      match dropWs rest with
      | c :: _ => c.isDigit
      | [] => false
  | none => false

/-- Match `seasons?\s*\d` at the head of a lowercased character list. -/
def matchSeasonNum (l : List Char) : Bool :=
  match dropLit "season".data l with
  | some rest =>
      let withS : Bool :=
        match rest with
        | 's' :: r =>
            (match dropWs r with
             | c :: _ => c.isDigit
             | [] => false)
        | _ => false
      withS ||
        (match dropWs rest with
         | c :: _ => c.isDigit
         | [] => false)
  | none => false

/-- Match `\d\s*season` at the head (the tail of regex `\d+\s*seasons?`
can start at the run's last digit, and the trailing `s?` is optional, so
this characterises matchability). -/
def matchNumSeason (l : List Char) : Bool :=
  match l with
  | c :: rest => c.isDigit && (dropLit "season".data (dropWs rest)).isSome
  | [] => false

/-- One position of `SHOW_RE` (src/identification.rs line 18):
`(?i)s(\d+)\.?e(\d+)|s(\d+)|(\d+)x(\d+)|seasons?\s*\d+|\d+\s*seasons?|temporada\s*\d+|saison\s*\d+|e\d+`.
The first alternative is subsumed by `s(\d+)` for matchability. -/
def showAt (l : List Char) : Bool :=
  (match l with
   | 's' :: c :: _ => c.isDigit
   | _ => false) ||
  (match l with
   | 'e' :: c :: _ => c.isDigit
   | _ => false) ||
  (match l with
   | a :: 'x' :: b :: _ => a.isDigit && b.isDigit
   | _ => false) ||
  matchSeasonNum l ||
  matchNumSeason l ||
  matchWordNum "temporada" l ||
  matchWordNum "saison" l

/-- `SHOW_RE.is_match` over the lowercased input. -/
def showReMatchL : List Char → Bool
  | [] => false
  | c :: rest => showAt (c :: rest) || showReMatchL rest

/-- `SHOW_RE.is_match(s)`. -/
def showReMatch (s : String) : Bool := showReMatchL (s.data.map Char.toLower)

/-- `is_show_guess` from src/identification.rs lines 357-363: some file's
basename matches `SHOW_RE`, or more than one file passes the video filter
(neither check consults the `selected` flag). -/
def isShowGuess (files : List TorrentFile) : Bool :=
  files.any (fun f => showReMatch (lastComponent f.path)) ||
    decide ((files.filter (fun f => isVideoFile f.path)).length > 1)

/-- One position of the spec claim's pattern
`s\d+e\d+|s\d+|\d+x\d+|season\s*\d+|\d+\s*seasons?|e\d+`
(the claim's list, without the source's temporada/saison alternatives). -/
def claimShowAt (l : List Char) : Bool :=
  (match l with
   | 's' :: c :: _ => c.isDigit
   | _ => false) ||
  (match l with
   | 'e' :: c :: _ => c.isDigit
   | _ => false) ||
  (match l with
   | a :: 'x' :: b :: _ => a.isDigit && b.isDigit
   | _ => false) ||
  matchWordNum "season" l ||
  matchNumSeason l

def claimShowPatternL : List Char → Bool
  | [] => false
  | c :: rest => claimShowAt (c :: rest) || claimShowPatternL rest

def claimShowPattern (s : String) : Bool :=
  claimShowPatternL (s.data.map Char.toLower)

/-- Claim C3's show rule, taken at its word: a *selected video* file's
basename matches the claim's pattern, or at least 2 *selected video* files
are present. -/
def claimShowGuess (files : List TorrentFile) : Bool :=
  files.any (fun f => f.selected = 1 && isVideoFile f.path &&
      claimShowPattern (lastComponent f.path)) ||
    decide (2 ≤ (files.filter (fun f => f.selected = 1 && isVideoFile f.path)).length)

/-- The amended C3 rule, following the source: the pattern check runs over
every file (selected or not, video or not), and the 2-file threshold counts
every video file (selected or not). -/
def amendedShowGuess (files : List TorrentFile) : Bool :=
  files.any (fun f => showReMatch (lastComponent f.path)) ||
    decide (2 ≤ (files.filter (fun f => isVideoFile f.path)).length)

/-- **C3 (amended).** The identifier decides media type Show exactly when
some file of the torrent — selected or not, video or not — has a basename
matching the show regex (which also has temporada/saison alternatives), or
when more than one file of the torrent (selected or not) passes the video
filter; in every other case it decides Movie. -/
theorem c3_show_guess (files : List TorrentFile) :
    isShowGuess files = amendedShowGuess files ∧
    (isShowGuess files = true ↔
      (∃ f ∈ files, showReMatch (lastComponent f.path) = true) ∨
        2 ≤ (files.filter (fun f => isVideoFile f.path)).length) := by
  constructor
  · rfl
  · unfold isShowGuess
    rw [Bool.or_eq_true, List.any_eq_true, decide_eq_true_eq]
    exact Iff.rfl

/-- Concrete input refuting C3 as stated: one unselected subtitle file whose
basename carries an episode marker. -/
def c3File : TorrentFile :=
  { id := 1, path := "Show.s01e01.srt", bytes := 100, selected := 0 }

/-- **C3 counterexample.** For a torrent holding only an unselected
non-video file `Show.s01e01.srt`, the source decides Show (the regex runs
over every file), while the claim — which restricts both checks to selected
video files — demands Movie. -/
theorem c3_counterexample :
    isShowGuess [c3File] = true ∧ claimShowGuess [c3File] = false := by
  constructor
  · decide
  · decide

/-! ### TMDB candidate scoring and selection (claim C8)

`score_result` (src/identification.rs lines 152-217) computes an `f64`
score from vote counts, `log10`, popularity and year bonuses — floating
point, which a shallow embedding cannot state faithfully.  The claims at
hand are independent of the ordering the scores induce, so the comparator
`(a, b) ↦ score(a).partial_cmp(score(b)).unwrap_or(Equal)` is taken as an
oracle parameter `cmp`, universally quantified in every theorem. -/

/-- `TmdbSearchResult` from src/tmdb_client.rs (the `popularity`,
`vote_average` and `vote_count` fields feed only the abstracted scorer). -/
structure TmdbSearchResult where
  id : Nat
  title : String
  original_title : Option String
  release_date : Option String
deriving DecidableEq, Repr

/-- `Iterator::max_by` — keeps the later element on ties. -/
def maxBy (cmp : TmdbSearchResult → TmdbSearchResult → Ordering)
    (l : List TmdbSearchResult) : Option TmdbSearchResult :=
  l.foldl
    (fun acc x =>
      match acc with
      | none => some x
      | some a => if cmp a x = .gt then some a else some x)
    none

/-- `normalize_title` from src/identification.rs lines 365-381. -/
def normalizeTitle (s : String) : String :=
  let t := (strLower s).replace " and " " & "
  String.mk ((t.data.map (fun c =>
    match c with
    | 'à' | 'á' | 'â' | 'ã' | 'ä' | 'å' => 'a'
    | 'è' | 'é' | 'ê' | 'ë' => 'e'
    | 'ì' | 'í' | 'î' | 'ï' => 'i'
    | 'ò' | 'ó' | 'ô' | 'õ' | 'ö' => 'o'
    | 'ù' | 'ú' | 'û' | 'ü' => 'u'
    | 'ñ' => 'n'
    | 'ç' => 'c'
    | _ => c)).filter (fun c => c.isAlphanum))

/-- The year test used by the short-title gate and `select_best_match`:
the release date starts with the query year (false when either is absent). -/
def yearMatches (year : Option String) (r : TmdbSearchResult) : Bool :=
  match year with
  | some y =>
      match r.release_date with
      | some rd => rd.startsWith y
      | none => false
  | none => false

/-- `best_scored_result` from src/identification.rs lines 64-95. -/
def bestScoredResult (cmp : TmdbSearchResult → TmdbSearchResult → Ordering)
    (results : List TmdbSearchResult) (normalizedQuery : String)
    (year : Option String) (isShortTitle : Bool) : Option TmdbSearchResult :=
  if results.isEmpty then none
  else if isShortTitle then
    maxBy cmp (results.filter
      (fun r => normalizeTitle r.title = normalizedQuery && yearMatches year r))
  else maxBy cmp results

/-- The exact-title test of `select_best_match` (title or original title). -/
def isExact (q : String) (r : TmdbSearchResult) : Bool :=
  normalizeTitle r.title = q ||
    (match r.original_title with
     | some t => normalizeTitle t = q
     | none => false)

/-- The selection if-chain of `select_best_match` when both a TV and a movie
candidate are present (src/identification.rs lines 114-143). -/
def selectPair (tv movie : TmdbSearchResult) (q : String)
    (year : Option String) (showGuess : Bool) : TmdbSearchResult × MediaType :=
  let tvExact := isExact q tv
  let movieExact := isExact q movie
  let tvYear := yearMatches year tv
  let movieYear := yearMatches year movie
  let tvExactYear := tvExact && tvYear
  let movieExactYear := movieExact && movieYear
  if tvExactYear && !movieExactYear then (tv, .show)
  else if movieExactYear && !tvExactYear then (movie, .movie)
  else if showGuess && tvYear then (tv, .show)
  else if !showGuess && movieYear then (movie, .movie)
  else if tvExact && !movieExact then (tv, .show)
  else if movieExact && !tvExact then (movie, .movie)
  else if tvYear && !movieYear then (tv, .show)
  else if movieYear && !tvYear then (movie, .movie)
  else if showGuess then (tv, .show)
  else (movie, .movie)

/-- `select_best_match` from src/identification.rs lines 97-150. -/
def selectBestMatch (tv movie : Option TmdbSearchResult) (q : String)
    (year : Option String) (showGuess : Bool) :
    Option (String × Option String × String × String × MediaType) :=
  match tv, movie with
  | some tv, some movie =>
      let sel := selectPair tv movie q year showGuess
      some (sel.1.title, sel.1.release_date, toString sel.1.id, "tmdb", sel.2)
  | some tv, none => some (tv.title, tv.release_date, toString tv.id, "tmdb", .show)
  | none, some movie =>
      some (movie.title, movie.release_date, toString movie.id, "tmdb", .movie)
  | none, none => none

theorem selectPair_cases (tv movie : TmdbSearchResult) (q : String)
    (year : Option String) (showGuess : Bool) :
    selectPair tv movie q year showGuess = (tv, .show) ∨
      selectPair tv movie q year showGuess = (movie, .movie) := by
  unfold selectPair
  dsimp only
  repeat' split
  all_goals first
    | exact Or.inl rfl
    | exact Or.inr rfl

/-- `CAMEL_RE.replace_all(s, "$1 $2")` — insert a space at each
lowercase→uppercase boundary, consuming both characters of a match. -/
def camelSplitL : List Char → List Char
  | a :: b :: rest =>
      if a.isLower && b.isUpper then a :: ' ' :: b :: camelSplitL rest
      else a :: camelSplitL (b :: rest)
  | l => l

def camelSplit (s : String) : String := String.mk (camelSplitL s.data)

/-- The responses the metadata source would return for the (up to) six
queries `identify_name` can make: the initial pair, the CamelCase-split
retry pair, and the no-year retry pair. -/
structure TmdbSearches where
  tvInitial : List TmdbSearchResult
  movieInitial : List TmdbSearchResult
  tvSplit : List TmdbSearchResult
  movieSplit : List TmdbSearchResult
  tvNoYear : List TmdbSearchResult
  movieNoYear : List TmdbSearchResult
deriving Repr

/-- The result-gathering part of `identify_name`
(src/identification.rs lines 229-269): initial search, CamelCase-split
fallback when both lists are empty, and the no-year retry when a year was
given but neither list holds an exact title match. -/
def gatherResults (cleanedName : String) (year : Option String)
    (oracle : TmdbSearches) : List TmdbSearchResult × List TmdbSearchResult :=
  let tv := oracle.tvInitial
  let movie := oracle.movieInitial
  let p :=
    if tv.isEmpty && movie.isEmpty then
      let splitName := camelSplit cleanedName
      if splitName ≠ cleanedName then (tv ++ oracle.tvSplit, movie ++ oracle.movieSplit)
      else (tv, movie)
    else (tv, movie)
  let normalized := normalizeTitle cleanedName
  let tvHasExact := p.1.any (isExact normalized)
  let movieHasExact := p.2.any (isExact normalized)
  if !tvHasExact && !movieHasExact && year.isSome then
    (p.1 ++ oracle.tvNoYear, p.2 ++ oracle.movieNoYear)
  else p

/-- Numeric value of an all-digit string (`str::parse::<u32>` succeeds on
the digit strings reaching it here: ≤ 4 digits always fit in a `u32`). -/
def digitsVal (l : List Char) : Nat :=
  l.foldl (fun acc c => acc * 10 + (c.toNat - '0'.toNat)) 0

/-- `GENERIC_RE` (src/identification.rs line 20):
`^(episode|season|part|volume|vol)\s*(\d+|[a-z])?$` over the lowercased
input. -/
def genericReMatch (l : List Char) : Bool :=
  ["episode", "season", "part", "volume", "vol"].any (fun kw =>
    match dropLit kw.data l with
    | some rest =>
        let r := dropWs rest
        r.isEmpty || (!r.isEmpty && r.all (·.isDigit)) ||
          (match r with
           | [c] => 'a' ≤ c && c ≤ 'z'
           | _ => false)
    | none => false)

/-- `is_generic_title` from src/identification.rs lines 383-406. -/
def isGenericTitle (s : String) : Bool :=
  let lower := strLower s
  if lower.isEmpty then true
  else if s.data.all (·.isDigit) &&
      (5 ≤ s.data.length || digitsVal s.data < 10) then true
  else genericReMatch lower.data

/-- The part of `identify_name` (src/identification.rs lines 219-292) after
`clean_name`: reject empty/generic cleaned titles, gather TMDB results,
apply the short-title gate, score, select, and build the `MediaMetadata`.
`cleanedName`/`year` are the pair `clean_name` produced; `cmp` is the
`score_result` comparator (see above). -/
def identifyNameCore (cmp : TmdbSearchResult → TmdbSearchResult → Ordering)
    (cleanedName : String) (year : Option String) (files : List TorrentFile)
    (oracle : TmdbSearches) : Option MediaMetadata :=
  if cleanedName.isEmpty || isGenericTitle cleanedName then none
  else
    let showGuess := isShowGuess files
    let normalized := normalizeTitle cleanedName
    let results := gatherResults cleanedName year oracle
    let isShortTitle := decide (cleanedName.utf8ByteSize ≤ 3)
    let bestTv := bestScoredResult cmp results.1 normalized year isShortTitle
    let bestMovie := bestScoredResult cmp results.2 normalized year isShortTitle
    match selectBestMatch bestTv bestMovie normalized year showGuess with
    | some (title, releaseDate, id, source, mtype) =>
        some { title := title
               year := releaseDate.map (fun d => String.mk ((d.data.filter (·.isDigit)).take 4))
               media_type := mtype
               external_id := some (source ++ ":" ++ id) }
    | none => none

theorem maxBy_mem (cmp : TmdbSearchResult → TmdbSearchResult → Ordering)
    (l : List TmdbSearchResult) (r : TmdbSearchResult)
    (h : maxBy cmp l = some r) : r ∈ l := by
  unfold maxBy at h
  suffices haux : ∀ (l : List TmdbSearchResult) (acc : Option TmdbSearchResult),
      l.foldl (fun acc x =>
        match acc with
        | none => some x
        | some a => if cmp a x = .gt then some a else some x) acc = some r →
      acc = some r ∨ r ∈ l by
    rcases haux l none h with h1 | h2
    · cases h1
    · exact h2
  intro l
  induction l with
  | nil => intro acc h; exact Or.inl h
  | cons x rest ih =>
      intro acc h
      rw [List.foldl_cons] at h
      rcases ih _ h with h1 | h2
      · match acc with
        | none =>
            simp only at h1
            cases h1
            exact Or.inr (List.mem_cons_self _ _)
        | some a =>
            simp only at h1
            split at h1
            · exact Or.inl h1
            · cases h1
              exact Or.inr (List.mem_cons_self _ _)
      · exact Or.inr (List.mem_cons_of_mem _ h2)

/-- Under the short-title gate, a returned best result satisfies the
exact-normalized-title and year-match filter. -/
theorem bestScored_short_spec (cmp : TmdbSearchResult → TmdbSearchResult → Ordering)
    (results : List TmdbSearchResult) (q : String) (year : Option String)
    (r : TmdbSearchResult)
    (h : bestScoredResult cmp results q year true = some r) :
    r ∈ results ∧ normalizeTitle r.title = q ∧ yearMatches year r = true := by
  unfold bestScoredResult at h
  split at h
  · cases h
  · have hmem := maxBy_mem cmp _ r h
    rw [List.mem_filter] at hmem
    obtain ⟨hr, hcond⟩ := hmem
    rw [Bool.and_eq_true, decide_eq_true_eq] at hcond
    exact ⟨hr, hcond.1, hcond.2⟩

/-- Under the short-title gate, if no candidate passes the filter, no best
result is returned. -/
theorem bestScored_short_none (cmp : TmdbSearchResult → TmdbSearchResult → Ordering)
    (results : List TmdbSearchResult) (q : String) (year : Option String)
    (hnone : ∀ r ∈ results,
      ¬(normalizeTitle r.title = q ∧ yearMatches year r = true)) :
    bestScoredResult cmp results q year true = none := by
  unfold bestScoredResult
  split
  · rfl
  · have : results.filter
        (fun r => normalizeTitle r.title = q && yearMatches year r) = [] := by
      rw [List.filter_eq_nil_iff]
      intro r hr
      intro hcond
      rw [Bool.and_eq_true, decide_eq_true_eq] at hcond
      exact hnone r hr hcond
    rw [this]
    rfl

/-- A successful `select_best_match` yields the fields of one of its two
candidates, tagged `tmdb`. -/
theorem selectBestMatch_spec (tv movie : Option TmdbSearchResult) (q : String)
    (year : Option String) (showGuess : Bool)
    (t : String) (rd : Option String) (i source : String) (mt : MediaType)
    (h : selectBestMatch tv movie q year showGuess = some (t, rd, i, source, mt)) :
    source = "tmdb" ∧
      ∃ r, (tv = some r ∨ movie = some r) ∧
        t = r.title ∧ rd = r.release_date ∧ i = toString r.id := by
  match tv, movie with
  | some tv, some movie =>
      unfold selectBestMatch at h
      dsimp only at h
      cases h
      refine ⟨rfl, ?_⟩
      rcases selectPair_cases tv movie q year showGuess with hp | hp <;> rw [hp]
      · exact ⟨tv, Or.inl rfl, rfl, rfl, rfl⟩
      · exact ⟨movie, Or.inr rfl, rfl, rfl, rfl⟩
  | some tv, none =>
      unfold selectBestMatch at h
      cases h
      exact ⟨rfl, tv, Or.inl rfl, rfl, rfl, rfl⟩
  | none, some movie =>
      unfold selectBestMatch at h
      cases h
      exact ⟨rfl, movie, Or.inr rfl, rfl, rfl, rfl⟩
  | none, none => cases h

/-- **C8.** When the cleaned title's byte length is at most 3, candidate
selection only considers results whose normalized title equals the
normalized query and whose release date starts with the extracted year: the
external id of any returned match belongs to such a gathered result; and
when no year was extracted, no external match is returned at all.  Both
hold for every comparator the `f64` scorer could induce. -/
theorem c8_short_title_gate :
    (∀ (cmp : TmdbSearchResult → TmdbSearchResult → Ordering)
        (cleaned : String) (year : Option String) (files : List TorrentFile)
        (oracle : TmdbSearches) (m : MediaMetadata),
        cleaned.utf8ByteSize ≤ 3 →
        identifyNameCore cmp cleaned year files oracle = some m →
        ∃ r, (r ∈ (gatherResults cleaned year oracle).1 ∨
              r ∈ (gatherResults cleaned year oracle).2) ∧
          normalizeTitle r.title = normalizeTitle cleaned ∧
          yearMatches year r = true ∧
          m.external_id = some ("tmdb:" ++ toString r.id)) ∧
    (∀ (cmp : TmdbSearchResult → TmdbSearchResult → Ordering)
        (cleaned : String) (files : List TorrentFile) (oracle : TmdbSearches),
        cleaned.utf8ByteSize ≤ 3 →
        identifyNameCore cmp cleaned none files oracle = none) := by
  have hshortBest : ∀ cmp cleaned (year : Option String) results,
      cleaned.utf8ByteSize ≤ 3 →
      bestScoredResult cmp results (normalizeTitle cleaned) year
          (decide (cleaned.utf8ByteSize ≤ 3)) =
        bestScoredResult cmp results (normalizeTitle cleaned) year true := by
    intro cmp cleaned year results hle
    rw [decide_eq_true hle]
  constructor
  · intro cmp cleaned year files oracle m hle hid
    unfold identifyNameCore at hid
    split at hid
    · cases hid
    · dsimp only at hid
      rw [hshortBest cmp cleaned year _ hle,
        hshortBest cmp cleaned year _ hle] at hid
      rcases hsel : selectBestMatch
          (bestScoredResult cmp (gatherResults cleaned year oracle).1
            (normalizeTitle cleaned) year true)
          (bestScoredResult cmp (gatherResults cleaned year oracle).2
            (normalizeTitle cleaned) year true)
          (normalizeTitle cleaned) year (isShowGuess files)
        with _ | res
      · rw [hsel] at hid
        cases hid
      · rw [hsel] at hid
        obtain ⟨t, rd, i, source, mt⟩ := res
        cases hid
        obtain ⟨hsrc, r, hor, ht, hrd, hi⟩ :=
          selectBestMatch_spec _ _ _ _ _ _ _ _ _ _ hsel
        rcases hor with htv | hmov
        · obtain ⟨hmem, hnorm, hyear⟩ := bestScored_short_spec _ _ _ _ _ htv
          refine ⟨r, Or.inl hmem, hnorm, hyear, ?_⟩
          rw [hsrc, hi]
          rfl
        · obtain ⟨hmem, hnorm, hyear⟩ := bestScored_short_spec _ _ _ _ _ hmov
          refine ⟨r, Or.inr hmem, hnorm, hyear, ?_⟩
          rw [hsrc, hi]
          rfl
  · intro cmp cleaned files oracle hle
    unfold identifyNameCore
    split
    · rfl
    · dsimp only
      rw [hshortBest cmp cleaned none _ hle, hshortBest cmp cleaned none _ hle]
      rw [bestScored_short_none cmp _ _ none
            (by intro r hr hcond; simp [yearMatches] at hcond),
          bestScored_short_none cmp _ _ none
            (by intro r hr hcond; simp [yearMatches] at hcond)]
      rfl

/-- Concrete short-title input for the C8 witness (scenario 4 of the spec:
`UC.S01E01.mkv`). -/
def c8File : TorrentFile :=
  { id := 1, path := "UC.S01E01.mkv", bytes := 1000000, selected := 1 }

/-- A TMDB result whose title differs from "UC" — present in the search
response, yet not picked because of the short-title gate. -/
def c8Result : TmdbSearchResult :=
  { id := 45500, title := "Mobile Suit Gundam Unicorn",
    original_title := some "機動戦士ガンダムUC", release_date := some "2010-03-12" }

def c8Oracle : TmdbSearches :=
  { tvInitial := [c8Result], movieInitial := [], tvSplit := [], movieSplit := [],
    tvNoYear := [c8Result], movieNoYear := [] }

/-- Witness for C8: the cleaned short title "UC" with no extracted year
yields no external match even though the search returned a candidate. -/
theorem c8_short_title_gate_witness :
    identifyNameCore (fun _ _ => Ordering.eq) "UC" none [c8File] c8Oracle = none :=
  c8_short_title_gate.2 (fun _ _ => Ordering.eq) "UC" [c8File] c8Oracle (by decide)

/-! ## §4 VFS builder (src/vfs.rs)

`VfsNode` is the source's tagged variant; `BTreeMap<String, VfsNode>` is an
association list kept sorted by key (the B-tree's iteration order), with
`btInsert` the ordered insert-or-replace.  `Vec<u8>` contents are `List Nat`
byte values produced by an explicit UTF-8 encoder, so `String::into_bytes`
and the byte-exact 1024-padding of STRM payloads are faithful. -/

/-- `VfsNode` from src/vfs.rs lines 43-59. -/
inductive VfsNode where
  | directory (children : List (String × VfsNode))
  | strmFile (strm_content : List Nat) (rd_link : String) (rd_torrent_id : String)
  | virtualFile (content : List Nat)
deriving Repr

mutual

def nodeBeq : VfsNode → VfsNode → Bool
  | .directory a, .directory b => childrenBeq a b
  | .strmFile c1 l1 t1, .strmFile c2 l2 t2 => c1 == c2 && l1 == l2 && t1 == t2
  | .virtualFile c1, .virtualFile c2 => c1 == c2
  | _, _ => false

def childrenBeq : List (String × VfsNode) → List (String × VfsNode) → Bool
  | [], [] => true
  | (n1, v1) :: r1, (n2, v2) :: r2 => n1 == n2 && nodeBeq v1 v2 && childrenBeq r1 r2
  | _, _ => false

end

mutual

theorem nodeBeq_iff : ∀ (a b : VfsNode), nodeBeq a b = true ↔ a = b
  | .directory ca, .directory cb => by
      simp only [nodeBeq]
      rw [childrenBeq_iff ca cb]
      exact ⟨fun h => by rw [h], fun h => by cases h; rfl⟩
  | .directory _, .strmFile _ _ _ => by simp [nodeBeq]
  | .directory _, .virtualFile _ => by simp [nodeBeq]
  | .strmFile _ _ _, .directory _ => by simp [nodeBeq]
  | .strmFile c1 l1 t1, .strmFile c2 l2 t2 => by
      simp [nodeBeq, and_assoc]
  | .strmFile _ _ _, .virtualFile _ => by simp [nodeBeq]
  | .virtualFile _, .directory _ => by simp [nodeBeq]
  | .virtualFile _, .strmFile _ _ _ => by simp [nodeBeq]
  | .virtualFile c1, .virtualFile c2 => by simp [nodeBeq]

theorem childrenBeq_iff : ∀ (a b : List (String × VfsNode)), childrenBeq a b = true ↔ a = b
  | [], [] => by simp [childrenBeq]
  | [], _ :: _ => by simp [childrenBeq]
  | _ :: _, [] => by simp [childrenBeq]
  | (n1, v1) :: r1, (n2, v2) :: r2 => by
      simp only [childrenBeq, Bool.and_eq_true, beq_iff_eq]
      rw [nodeBeq_iff v1 v2, childrenBeq_iff r1 r2]
      constructor
      · rintro ⟨⟨h1, h2⟩, h3⟩
        rw [h1, h2, h3]
      · intro h
        cases h
        exact ⟨⟨rfl, rfl⟩, rfl⟩

end

instance : DecidableEq VfsNode := fun a b => decidable_of_iff _ (nodeBeq_iff a b)

/-- Ordered insert-or-replace of `BTreeMap<String, V>::insert` (string order
is byte order on UTF-8, which is codepoint order). -/
def btInsert {α : Type} (m : List (String × α)) (k : String) (v : α) :
    List (String × α) :=
  match m with
  | [] => [(k, v)]
  | (k', v') :: rest =>
      if compare k k' = .lt then (k, v) :: (k', v') :: rest
      else if k = k' then (k, v) :: rest
      else (k', v') :: btInsert rest k v

theorem alGet_btInsert {α : Type} (m : List (String × α)) (k k' : String) (v : α) :
    alGet (btInsert m k v) k' = if k = k' then some v else alGet m k' := by
  induction m with
  | nil => simp [btInsert, alGet]
  | cons hd tl ih =>
      obtain ⟨k0, v0⟩ := hd
      unfold btInsert
      by_cases hlt : compare k k0 = .lt
      · rw [if_pos hlt]
        by_cases hk : k = k'
        · simp [alGet, hk]
        · simp [alGet, hk]
      · rw [if_neg hlt]
        by_cases heq : k = k0
        · subst heq
          by_cases hk : k = k'
          · simp [alGet, hk]
          · simp [alGet, hk]
        · rw [if_neg heq]
          by_cases h0 : k0 = k'
          · subst h0
            have : ¬ k = k0 := heq
            simp [alGet, this]
          · simp [alGet, h0, ih]

/-- Membership in an insert result comes from the old map or is the new
binding. -/
theorem mem_btInsert {α : Type} (m : List (String × α)) (k k1 : String)
    (v v1 : α) (h : (k1, v1) ∈ btInsert m k v) :
    (k1, v1) ∈ m ∨ (k1, v1) = (k, v) := by
  induction m with
  | nil =>
      simp only [btInsert] at h
      exact Or.inr (List.mem_singleton.mp h)
  | cons hd tl ih =>
      obtain ⟨k0, v0⟩ := hd
      unfold btInsert at h
      by_cases hlt : compare k k0 = .lt
      · rw [if_pos hlt] at h
        rcases List.mem_cons.mp h with h1 | h2
        · exact Or.inr h1
        · exact Or.inl h2
      · rw [if_neg hlt] at h
        by_cases heq : k = k0
        · rw [if_pos heq] at h
          rcases List.mem_cons.mp h with h1 | h2
          · exact Or.inr h1
          · exact Or.inl (List.mem_cons_of_mem _ h2)
        · rw [if_neg heq] at h
          rcases List.mem_cons.mp h with h1 | h2
          · exact Or.inl (h1 ▸ List.mem_cons_self _ _)
          · rcases ih h2 with h3 | h4
            · exact Or.inl (List.mem_cons_of_mem _ h3)
            · exact Or.inr h4

theorem btInsert_ne_nil {α : Type} (m : List (String × α)) (k : String) (v : α) :
    btInsert m k v ≠ [] := by
  cases m with
  | nil => simp [btInsert]
  | cons hd tl =>
      obtain ⟨k0, v0⟩ := hd
      unfold btInsert
      by_cases hlt : compare k k0 = .lt
      · simp [hlt]
      · rw [if_neg hlt]
        by_cases heq : k = k0 <;> simp [heq]

/-! ### Byte strings (`Vec<u8>` / `String::into_bytes`) -/

/-- UTF-8 encoding of one character. -/
def utf8Char (c : Char) : List Nat :=
  let n := c.toNat
  if n < 128 then [n]
  else if n < 2048 then [192 + n / 64, 128 + n % 64]
  else if n < 65536 then [224 + n / 4096, 128 + n / 64 % 64, 128 + n % 64]
  else [240 + n / 262144, 128 + n / 4096 % 64, 128 + n / 64 % 64, 128 + n % 64]

/-- `String::into_bytes` — the UTF-8 bytes of a string. -/
def utf8Bytes (s : String) : List Nat := s.data.flatMap utf8Char

/-- `Vec::resize(n, v)`: truncate to or pad with `v` up to length `n`. -/
def listResize (l : List Nat) (n : Nat) (v : Nat) : List Nat :=
  if n ≤ l.length then l.take n else l ++ List.replicate (n - l.length) v

/-- `STRM_FIXED_SIZE` from src/vfs.rs line 11. -/
def STRM_FIXED_SIZE : Nat := 1024

/-- The stored STRM payload (src/vfs.rs lines 367-370):
`format!("{}\n", link).into_bytes()` resized to `STRM_FIXED_SIZE` with
spaces (byte 32). -/
def strmContentBytes (link : String) : List Nat :=
  listResize (utf8Bytes (link ++ "\n")) STRM_FIXED_SIZE 32

theorem listResize_length (l : List Nat) (n v : Nat) :
    (listResize l n v).length = n := by
  unfold listResize
  split
  · rw [List.length_take]
    omega
  · rw [List.length_append, List.length_replicate]
    omega

theorem strmContentBytes_length (link : String) :
    (strmContentBytes link).length = 1024 :=
  listResize_length _ _ _

/-! ### Season parsing (`SEASON_RE`, src/vfs.rs lines 39-41) -/

/-- Maximal digit run at the head. -/
def takeDigits (l : List Char) : List Char := l.takeWhile (·.isDigit)

/-- `str::parse::<u32>().ok()` on a digit run. -/
def parseU32 (ds : List Char) : Option Nat :=
  if ds = [] then none
  else if digitsVal ds < 2 ^ 32 then some (digitsVal ds) else none

/-- The capture of `SEASON_RE = (?i)s(\d+)|season\s*(\d+)|(\d+)x\d+` at one
position of the lowercased input, alternatives in leftmost-first order. -/
def seasonAt (l : List Char) : Option (List Char) :=
  match l with
  | 's' :: rest =>
      let ds := takeDigits rest
      if ds ≠ [] then some ds
      else
        match dropLit "season".data l with
        | some r =>
            let ds2 := takeDigits (dropWs r)
            if ds2 ≠ [] then some ds2 else seasonAtNum l
        | none => seasonAtNum l
  | _ =>
      match dropLit "season".data l with
      | some r =>
          let ds2 := takeDigits (dropWs r)
          if ds2 ≠ [] then some ds2 else seasonAtNum l
      | none => seasonAtNum l
where
  seasonAtNum (l : List Char) : Option (List Char) :=
    let ds := takeDigits l
    if ds ≠ [] then
      match l.drop ds.length with
      | 'x' :: c :: _ => if c.isDigit then some ds else none
      | _ => none
    else none

/-- Scan for the leftmost `SEASON_RE` match. -/
def seasonScan : List Char → Option (List Char)
  | [] => none
  | c :: rest =>
      match seasonAt (c :: rest) with
      | some ds => some ds
      | none => seasonScan rest

/-- The season number of a file basename (src/vfs.rs lines 218-223):
first capture group parsed as `u32`, defaulting to 1. -/
def seasonOf (filename : String) : Nat :=
  match seasonScan (filename.data.map Char.toLower) with
  | some ds =>
      match parseU32 ds with
      | some n => n
      | none => 1
  | none => 1

/-- `format!("Season {:02}", season)`. -/
def seasonDirName (n : Nat) : String :=
  "Season " ++ (if n < 10 then "0" ++ toString n else toString n)

/-! ### Names and NFO (src/vfs.rs lines 265-420) -/

/-- Right fold for whitespace splitting: the word currently being built
(to the right of the scan point, up to the next whitespace) plus the
completed words after it. -/
def wsSplit : List Char → List Char × List (List Char)
  | [] => ([], [])
  | c :: rest =>
      let (cur, out) := wsSplit rest
      if c.isWhitespace then
        if cur = [] then ([], out) else ([], cur :: out)
      else (c :: cur, out)

/-- Whitespace-separated words of a character list
(`str::split_whitespace`): maximal runs of non-whitespace characters. -/
def wsWords (l : List Char) : List (List Char) :=
  match wsSplit l with
  | (cur, out) => if cur = [] then out else cur :: out

/-- `sanitize_filename` from src/vfs.rs lines 392-402. -/
def sanitizeFilename (name : String) : String :=
  let replaced := name.data.flatMap (fun c =>
    if c = '/' ∨ c = '\\' then ['-']
    else if c = ':' then [' ', '-']
    else [c])
  String.mk (List.intercalate [' '] (wsWords replaced))

/-- `str::split_once(':')` — split at the first colon. -/
def splitOnceColon (s : String) : Option (String × String) :=
  (go s.data).map (fun p => (String.mk p.1, String.mk p.2))
where
  go : List Char → Option (List Char × List Char)
    | [] => none
    | c :: rest =>
        if c = ':' then some ([], rest)
        else (go rest).map (fun p => (c :: p.1, p.2))

/-- `xml_escape` from src/vfs.rs lines 414-420. -/
def xmlEscape (s : String) : String :=
  ((((s.replace "&" "&amp;").replace "<" "&lt;").replace ">" "&gt;").replace
      "\"" "&quot;").replace "\x27" "&apos;"

/-- `DebridVfs::generate_nfo` from src/vfs.rs lines 265-312. -/
def generateNfo (metadata : MediaMetadata) : List Nat :=
  let tag := match metadata.media_type with
    | .movie => "movie"
    | .show => "tvshow"
  let nfo :=
    "<?xml version=\"1.0\" encoding=\"UTF-8\" standalone=\"yes\" ?>\n<" ++ tag ++ ">\n" ++
    "  <title>" ++ xmlEscape metadata.title ++ "</title>\n" ++
    "  <originaltitle>" ++ xmlEscape metadata.title ++ "</originaltitle>\n" ++
    (match metadata.year with
     | some y =>
         "  <year>" ++ xmlEscape y ++ "</year>\n" ++
         "  <premiered>" ++ xmlEscape y ++ "-01-01</premiered>\n"
     | none => "") ++
    (match metadata.external_id with
     | some eid =>
         match splitOnceColon eid with
         | some (source, id) =>
             "  <uniqueid type=\"" ++ xmlEscape source ++ "\" default=\"true\">" ++
               xmlEscape id ++ "</uniqueid>\n" ++
             (if source = "tmdb" then
                let path := match metadata.media_type with
                  | .movie => "movie"
                  | .show => "tv"
                "  <tmdbid>" ++ xmlEscape id ++ "</tmdbid>\n" ++
                "  <url>https://www.themoviedb.org/" ++ xmlEscape path ++ "/" ++
                  xmlEscape id ++ "</url>\n"
              else "")
         | none => ""
     | none => "") ++
    "  <lockdata>false</lockdata>\n" ++
    "  <source>debridmoviemapper</source>\n" ++
    "</" ++ tag ++ ">\n"
  utf8Bytes nfo

/-! ### Tree construction (src/vfs.rs lines 314-389) -/

/-- The `.strm` rename of the last path component (src/vfs.rs lines 349-353):
replace everything from the last dot on, or append. -/
def beforeLastDot : List Char → Option (List Char)
  | [] => none
  | x :: rest =>
      match beforeLastDot rest with
      | some pre => some (x :: pre)
      | none => if x = '.' then some [] else none

def strmName (part : String) : String :=
  match beforeLastDot part.data with
  | some pre => String.mk pre ++ ".strm"
  | none => part ++ ".strm"

/-- The `" (N)"` de-conflict candidate (src/vfs.rs lines 357-365). -/
def conflictName (strmN : String) (counter : Nat) : String :=
  if strEndsWith strmN ".strm" then
    String.mk (strmN.data.take (strmN.data.length - 5)) ++ " (" ++
      toString counter ++ ").strm"
  else strmN ++ " (" ++ toString counter ++ ")"

/-- The de-conflict `while` loop, with enough fuel to cover every occupied
name (`counter` candidates are pairwise distinct, so `children.length + 1`
tries always find a free one; the fuel-exhausted arm is unreachable). -/
def findFreeNameAux (children : List (String × VfsNode)) (strmN : String) :
    Nat → Nat → String
  | counter, 0 => conflictName strmN counter
  | counter, fuel + 1 =>
      let cand := conflictName strmN counter
      if (alGet children cand).isSome then
        findFreeNameAux children strmN (counter + 1) fuel
      else cand

def findFreeName (children : List (String × VfsNode)) (strmN : String) : String :=
  if (alGet children strmN).isSome then
    findFreeNameAux children strmN 1 (children.length + 1)
  else strmN

/-- `DebridVfs::add_path_to_tree` (src/vfs.rs lines 341-389) over the split
path components. -/
def addPathParts (children : List (String × VfsNode)) (parts : List String)
    (torrentId link : String) : List (String × VfsNode) :=
  match parts with
  | [] => children
  | [part] =>
      let finalName := findFreeName children (strmName part)
      btInsert children finalName (.strmFile (strmContentBytes link) link torrentId)
  | part :: rest =>
      match alGet children part with
      | none => btInsert children part (.directory (addPathParts [] rest torrentId link))
      | some (.directory sub) =>
          btInsert children part (.directory (addPathParts sub rest torrentId link))
      | some _ => children

/-- `path.trim_start_matches('/').split('/')` as strings. -/
def pathParts (path : String) : List String :=
  (splitOnChar '/' (path.data.dropWhile (· = '/'))).map String.mk

def addPathToTree (children : List (String × VfsNode)) (path : String)
    (torrentId link : String) : List (String × VfsNode) :=
  addPathParts children (pathParts path) torrentId link

/-- One file of `DebridVfs::add_torrent_files` (src/vfs.rs lines 322-338):
the link index advances on every selected file; only selected video files
with an in-range link emit a node. -/
def addTorrentFilesStep (torrent : TorrentInfo) (pathPrefix : Option String)
    (acc : List (String × VfsNode) × Nat) (f : TorrentFile) :
    List (String × VfsNode) × Nat :=
  let (dest, linkIdx) := acc
  if f.selected = 1 then
    let dest :=
      if isVideoFile f.path then
        match torrent.links.get? linkIdx with
        | some link =>
            let filename := lastComponent f.path
            let path :=
              match pathPrefix with
              | some p => p ++ "/" ++ String.mk (filename.data.dropWhile (· = '/'))
              | none => filename
            addPathToTree dest path torrent.id link
        | none => dest
      else dest
    (dest, linkIdx + 1)
  else (dest, linkIdx)

/-- `DebridVfs::add_torrent_files` (src/vfs.rs lines 314-339; the
selected-vs-links count warning is logging only). -/
def addTorrentFiles (dest : List (String × VfsNode)) (torrent : TorrentInfo)
    (pathPrefix : Option String) : List (String × VfsNode) :=
  (torrent.files.foldl (addTorrentFilesStep torrent pathPrefix) (dest, 0)).1

/-- One file of the Show arm of `DebridVfs::build`
(src/vfs.rs lines 212-237): place the `.strm` under its `Season NN`
directory parsed from the basename. -/
def addShowFileStep (torrent : TorrentInfo)
    (acc : List (String × VfsNode) × Nat) (f : TorrentFile) :
    List (String × VfsNode) × Nat :=
  let (sc, linkIdx) := acc
  if f.selected = 1 then
    let sc :=
      if isVideoFile f.path then
        match torrent.links.get? linkIdx with
        | some link =>
            let filename := lastComponent f.path
            let seasonName := seasonDirName (seasonOf filename)
            match alGet sc seasonName with
            | none =>
                btInsert sc seasonName
                  (.directory (addPathToTree [] filename torrent.id link))
            | some (.directory c) =>
                btInsert sc seasonName
                  (.directory (addPathToTree c filename torrent.id link))
            | some _ => sc
        | none => sc
      else sc
    (sc, linkIdx + 1)
  else (sc, linkIdx)

def addShowTorrent (showChildren : List (String × VfsNode))
    (torrent : TorrentInfo) : List (String × VfsNode) :=
  (torrent.files.foldl (addShowFileStep torrent) (showChildren, 0)).1

/-! ### `DebridVfs::build` (src/vfs.rs lines 117-263) -/

/-- `HashMap<MediaMetadata, Vec<TorrentInfo>>::entry(..).or_default().push(..)`
preserving first-seen group order and input order within each group. -/
def updateGroup : List (MediaMetadata × List TorrentInfo) → MediaMetadata →
    TorrentInfo → List (MediaMetadata × List TorrentInfo)
  | [], md, t => [(md, [t])]
  | (md0, ts) :: rest, md, t =>
      if md0 = md then (md0, ts ++ [t]) :: rest
      else (md0, ts) :: updateGroup rest md t

def groupsOf (torrents : List (TorrentInfo × MediaMetadata)) :
    List (MediaMetadata × List TorrentInfo) :=
  torrents.foldl (fun acc tm => updateGroup acc tm.2 tm.1) []

def groupGet : List (MediaMetadata × List TorrentInfo) → MediaMetadata →
    Option (List TorrentInfo)
  | [], _ => none
  | (md0, ts) :: rest, md => if md0 = md then some ts else groupGet rest md

/-- Stable insertion for `sort_by`: `x` goes before the first element not
strictly below it, so equal elements keep their original order. -/
def insSorted {α : Type} (lt : α → α → Bool) (x : α) : List α → List α
  | [] => [x]
  | y :: ys => if lt y x then y :: insSorted lt x ys else x :: y :: ys

def stableSortBy {α : Type} (lt : α → α → Bool) (l : List α) : List α :=
  l.foldr (insSorted lt) []

/-- `Option<String>` ordering: `None < Some`, `Some` by string order. -/
def cmpOptStr : Option String → Option String → Ordering
  | none, none => .eq
  | none, some _ => .lt
  | some _, none => .gt
  | some a, some b => compare a b

/-- The group comparator of `DebridVfs::build` (src/vfs.rs lines 129-133):
`(title, year, external_id)` lexicographically. -/
def cmpMeta (a b : MediaMetadata) : Ordering :=
  ((compare a.title b.title).then (cmpOptStr a.year b.year)).then
    (cmpOptStr a.external_id b.external_id)

/-- `sort_by_key(|t| Reverse(t.bytes))` — stable descending by size. -/
def sortByBytesDesc (l : List TorrentInfo) : List TorrentInfo :=
  stableSortBy (fun a b => decide (b.bytes < a.bytes)) l

/-- The Movie arm: only the largest torrent's files are emitted
(src/vfs.rs lines 183-188, `torrents.first()`). -/
def movieChildren (sortedTorrents : List TorrentInfo) : List (String × VfsNode) :=
  match sortedTorrents.head? with
  | some t => addTorrentFiles [] t none
  | none => []

/-- The Show arm: every torrent, largest first (src/vfs.rs lines 199-238). -/
def showChildrenOf (sortedTorrents : List TorrentInfo) : List (String × VfsNode) :=
  sortedTorrents.foldl addShowTorrent []

/-- The running state of the build loop: the de-conflict name counters and
the two top-level directory maps. -/
structure BuildState where
  usedMovieNames : List (String × Nat)
  usedShowNames : List (String × Nat)
  moviesNodes : List (String × VfsNode)
  showsNodes : List (String × VfsNode)
deriving Repr

/-- The folder name of a group (src/vfs.rs lines 150-165), together with
the updated de-conflict counters. -/
def folderNameOf (metadata : MediaMetadata) (usedNames : List (String × Nat)) :
    String × List (String × Nat) :=
  let baseName := sanitizeFilename metadata.title
  match metadata.external_id with
  | some id =>
      match splitOnceColon id with
      | some (source, rawId) =>
          (baseName ++ " [" ++ source ++ "id-" ++ rawId ++ "]", usedNames)
      | none => (baseName ++ " [id=" ++ id ++ "]", usedNames)
  | none =>
      let count := (alGet usedNames baseName).getD 0
      let name :=
        if count = 0 then baseName
        else baseName ++ " (" ++ toString count ++ ")"
      (name, alInsert usedNames baseName (count + 1))

/-- One group of `DebridVfs::build` (loop body, src/vfs.rs lines 138-250). -/
def buildStep (groups : List (MediaMetadata × List TorrentInfo))
    (st : BuildState) (metadata : MediaMetadata) : BuildState :=
  let torrents := sortByBytesDesc ((groupGet groups metadata).getD [])
  match metadata.media_type with
  | .movie =>
      let (folderName, used) := folderNameOf metadata st.usedMovieNames
      let children := movieChildren torrents
      if children ≠ [] then
        let children := btInsert children "movie.nfo"
          (.virtualFile (generateNfo metadata))
        { st with usedMovieNames := used,
                  moviesNodes := btInsert st.moviesNodes folderName
                    (.directory children) }
      else { st with usedMovieNames := used }
  | .show =>
      let (folderName, used) := folderNameOf metadata st.usedShowNames
      let showChildren := showChildrenOf torrents
      if showChildren ≠ [] then
        let showChildren := btInsert showChildren "tvshow.nfo"
          (.virtualFile (generateNfo metadata))
        { st with usedShowNames := used,
                  showsNodes := btInsert st.showsNodes folderName
                    (.directory showChildren) }
      else { st with usedShowNames := used }

/-- The final `BuildState` of `DebridVfs::build`. -/
def debridVfsBuildState (torrents : List (TorrentInfo × MediaMetadata)) :
    BuildState :=
  let groups := groupsOf torrents
  let sortedMeta := stableSortBy (fun a b => decide (cmpMeta a b = .lt))
    (groups.map (·.1))
  sortedMeta.foldl (buildStep groups) ⟨[], [], [], []⟩

/-- `DebridVfs::build`: the children of the new root — `Movies/` and
`Shows/` always present (src/vfs.rs lines 252-262). -/
def debridVfsBuild (torrents : List (TorrentInfo × MediaMetadata)) :
    List (String × VfsNode) :=
  let st := debridVfsBuildState torrents
  [("Movies", .directory st.moviesNodes), ("Shows", .directory st.showsNodes)]

/-! ### Stream-file payload invariant (claim C5) -/

mutual

/-- All `(strm_content, rd_link, rd_torrent_id)` triples in a subtree. -/
def strmNodes : VfsNode → List (List Nat × String × String)
  | .directory cs => strmNodesChildren cs
  | .strmFile c l t => [(c, l, t)]
  | .virtualFile _ => []

def strmNodesChildren : List (String × VfsNode) → List (List Nat × String × String)
  | [] => []
  | (_, v) :: rest => strmNodes v ++ strmNodesChildren rest

end

/-- Modelled from the spec: the WebDAV metadata length of a node.  The
`DavMetaData` implementation for the repo's `VfsNode` (with its `StrmFile` /
`VirtualFile` variants) is missing from src — src/dav_fs.rs is a stale
revision matching a `VfsNode::File` variant that does not exist in
src/vfs.rs, while src/main.rs and the tests call the newer three-argument
`DebridFileSystem::new`.  Per spec §3 and §4.6 ("Metadata of a stream file:
fixed size 1024", "metadata size equals read size"), a stream file reports
the length of its stored payload, a virtual file the length of its content,
and a directory 0. -/
def metaLen : VfsNode → Nat
  | .directory _ => 0
  | .strmFile c _ _ => c.length
  | .virtualFile c => c.length

theorem strmNodesChildren_btInsert (cs : List (String × VfsNode)) (k : String)
    (v : VfsNode) (s : List Nat × String × String)
    (h : s ∈ strmNodesChildren (btInsert cs k v)) :
    s ∈ strmNodesChildren cs ∨ s ∈ strmNodes v := by
  induction cs with
  | nil =>
      simp only [btInsert, strmNodesChildren, strmNodes, List.append_nil] at h
      exact Or.inr h
  | cons hd tl ih =>
      obtain ⟨k0, v0⟩ := hd
      unfold btInsert at h
      by_cases hlt : compare k k0 = .lt
      · rw [if_pos hlt] at h
        simp only [strmNodesChildren, List.mem_append] at h ⊢
        tauto
      · rw [if_neg hlt] at h
        by_cases heq : k = k0
        · rw [if_pos heq] at h
          simp only [strmNodesChildren, List.mem_append] at h ⊢
          tauto
        · rw [if_neg heq] at h
          simp only [strmNodesChildren, List.mem_append] at h ⊢
          rcases h with h1 | h2
          · tauto
          · rcases ih h2 with h3 | h4 <;> tauto

theorem strmNodes_of_alGet (cs : List (String × VfsNode)) (k : String)
    (v : VfsNode) (hget : alGet cs k = some v)
    (s : List Nat × String × String) (h : s ∈ strmNodes v) :
    s ∈ strmNodesChildren cs := by
  induction cs with
  | nil => cases hget
  | cons hd tl ih =>
      obtain ⟨k0, v0⟩ := hd
      unfold alGet at hget
      by_cases hk : k0 = k
      · rw [if_pos hk] at hget
        cases hget
        simp only [strmNodesChildren, List.mem_append]
        exact Or.inl h
      · rw [if_neg hk] at hget
        simp only [strmNodesChildren, List.mem_append]
        exact Or.inr (ih hget)

/-- Provenance of stream nodes through `add_path_to_tree`: either already
present, or the freshly inserted padded payload. -/
theorem strmNodes_addPathParts (parts : List String)
    (cs : List (String × VfsNode)) (tid link : String)
    (s : List Nat × String × String)
    (h : s ∈ strmNodesChildren (addPathParts cs parts tid link)) :
    s ∈ strmNodesChildren cs ∨ s = (strmContentBytes link, link, tid) := by
  induction parts generalizing cs with
  | nil => exact Or.inl h
  | cons part rest ih =>
      match rest, h with
      | [], h =>
          simp only [addPathParts] at h
          rcases strmNodesChildren_btInsert _ _ _ _ h with h1 | h2
          · exact Or.inl h1
          · simp only [strmNodes, List.mem_singleton] at h2
            exact Or.inr h2
      | r0 :: rrest, h =>
          simp only [addPathParts] at h
          rcases hget : alGet cs part with _ | node
          · rw [hget] at h
            rcases strmNodesChildren_btInsert _ _ _ _ h with h1 | h2
            · exact Or.inl h1
            · simp only [strmNodes] at h2
              rcases ih [] h2 with h3 | h4
              · cases h3
              · exact Or.inr h4
          · rw [hget] at h
            match node, h with
            | .directory sub, h =>
                rcases strmNodesChildren_btInsert _ _ _ _ h with h1 | h2
                · exact Or.inl h1
                · simp only [strmNodes] at h2
                  rcases ih sub h2 with h3 | h4
                  · exact Or.inl (strmNodes_of_alGet cs part _ hget s h3)
                  · exact Or.inr h4
            | .strmFile a b c, h => exact Or.inl h
            | .virtualFile a, h => exact Or.inl h

theorem strmNodes_addPathToTree (cs : List (String × VfsNode))
    (path tid link : String) (s : List Nat × String × String)
    (h : s ∈ strmNodesChildren (addPathToTree cs path tid link)) :
    s ∈ strmNodesChildren cs ∨ s = (strmContentBytes link, link, tid) :=
  strmNodes_addPathParts _ cs tid link s h

/-- Provenance through `add_torrent_files`: old nodes, or a padded payload
bearing this torrent's id. -/
theorem strmNodes_addTorrentFiles (torrent : TorrentInfo)
    (pathPrefix : Option String) (dest : List (String × VfsNode))
    (s : List Nat × String × String)
    (h : s ∈ strmNodesChildren (addTorrentFiles dest torrent pathPrefix)) :
    s ∈ strmNodesChildren dest ∨
      ∃ link, s = (strmContentBytes link, link, torrent.id) := by
  unfold addTorrentFiles at h
  suffices haux : ∀ (fs : List TorrentFile) (acc : List (String × VfsNode) × Nat),
      s ∈ strmNodesChildren (fs.foldl (addTorrentFilesStep torrent pathPrefix) acc).1 →
      s ∈ strmNodesChildren acc.1 ∨
        ∃ link, s = (strmContentBytes link, link, torrent.id) by
    exact haux torrent.files (dest, 0) h
  intro fs
  induction fs with
  | nil => intro acc h; exact Or.inl h
  | cons f frest ih =>
      intro acc h
      rw [List.foldl_cons] at h
      rcases ih _ h with h1 | h2
      · obtain ⟨d, idx⟩ := acc
        unfold addTorrentFilesStep at h1
        dsimp only at h1
        split at h1
        · split at h1
          · rcases hlink : torrent.links.get? idx with _ | link
            · rw [hlink] at h1
              exact Or.inl h1
            · rw [hlink] at h1
              rcases strmNodes_addPathToTree _ _ _ _ _ h1 with h3 | h4
              · exact Or.inl h3
              · exact Or.inr ⟨link, h4⟩
          · exact Or.inl h1
        · exact Or.inl h1
      · exact Or.inr h2

/-- Provenance through the Show arm's per-file insertion. -/
theorem strmNodes_addShowTorrent (torrent : TorrentInfo)
    (sc : List (String × VfsNode)) (s : List Nat × String × String)
    (h : s ∈ strmNodesChildren (addShowTorrent sc torrent)) :
    s ∈ strmNodesChildren sc ∨
      ∃ link, s = (strmContentBytes link, link, torrent.id) := by
  unfold addShowTorrent at h
  suffices haux : ∀ (fs : List TorrentFile) (acc : List (String × VfsNode) × Nat),
      s ∈ strmNodesChildren (fs.foldl (addShowFileStep torrent) acc).1 →
      s ∈ strmNodesChildren acc.1 ∨
        ∃ link, s = (strmContentBytes link, link, torrent.id) by
    exact haux torrent.files (sc, 0) h
  intro fs
  induction fs with
  | nil => intro acc h; exact Or.inl h
  | cons f frest ih =>
      intro acc h
      rw [List.foldl_cons] at h
      rcases ih _ h with h1 | h2
      · obtain ⟨d, idx⟩ := acc
        unfold addShowFileStep at h1
        dsimp only at h1
        split at h1
        · split at h1
          · rcases hlink : torrent.links.get? idx with _ | link
            · rw [hlink] at h1
              exact Or.inl h1
            · rw [hlink] at h1
              rcases hget : alGet d (seasonDirName (seasonOf (lastComponent f.path)))
                with _ | node
              · rw [hget] at h1
                rcases strmNodesChildren_btInsert _ _ _ _ h1 with h3 | h4
                · exact Or.inl h3
                · simp only [strmNodes] at h4
                  rcases strmNodes_addPathToTree _ _ _ _ _ h4 with h5 | h6
                  · cases h5
                  · exact Or.inr ⟨_, h6⟩
              · rw [hget] at h1
                match node, h1 with
                | .directory c, h1 =>
                    rcases strmNodesChildren_btInsert _ _ _ _ h1 with h3 | h4
                    · exact Or.inl h3
                    · simp only [strmNodes] at h4
                      rcases strmNodes_addPathToTree _ _ _ _ _ h4 with h5 | h6
                      · exact Or.inl (strmNodes_of_alGet d _ _ hget s h5)
                      · exact Or.inr ⟨_, h6⟩
                | .strmFile a b c, h1 => exact Or.inl h1
                | .virtualFile a, h1 => exact Or.inl h1
          · exact Or.inl h1
        · exact Or.inl h1
      · exact Or.inr h2

theorem strmNodes_movieChildren (sorted : List TorrentInfo)
    (s : List Nat × String × String)
    (h : s ∈ strmNodesChildren (movieChildren sorted)) :
    ∃ t0, sorted.head? = some t0 ∧
      ∃ link, s = (strmContentBytes link, link, t0.id) := by
  unfold movieChildren at h
  rcases hh : sorted.head? with _ | t0
  · rw [hh] at h
    cases h
  · rw [hh] at h
    rcases strmNodes_addTorrentFiles _ _ _ _ h with h1 | h2
    · cases h1
    · exact ⟨t0, rfl, h2⟩

theorem strmNodes_showChildrenOf (sorted : List TorrentInfo)
    (s : List Nat × String × String)
    (h : s ∈ strmNodesChildren (showChildrenOf sorted)) :
    ∃ t ∈ sorted, ∃ link, s = (strmContentBytes link, link, t.id) := by
  unfold showChildrenOf at h
  suffices haux : ∀ (ts : List TorrentInfo) (acc : List (String × VfsNode)),
      s ∈ strmNodesChildren (ts.foldl addShowTorrent acc) →
      s ∈ strmNodesChildren acc ∨
        ∃ t ∈ ts, ∃ link, s = (strmContentBytes link, link, t.id) by
    rcases haux sorted [] h with h1 | h2
    · cases h1
    · exact h2
  intro ts
  induction ts with
  | nil => intro acc h; exact Or.inl h
  | cons t trest ih =>
      intro acc h
      rw [List.foldl_cons] at h
      rcases ih _ h with h1 | h2
      · rcases strmNodes_addShowTorrent _ _ _ h1 with h3 | h4
        · exact Or.inl h3
        · exact Or.inr ⟨t, List.mem_cons_self _ _, h4⟩
      · obtain ⟨t1, ht1, hlink⟩ := h2
        exact Or.inr ⟨t1, List.mem_cons_of_mem _ ht1, hlink⟩

/-- Provenance through one build-loop group. -/
theorem strmNodes_buildStep (groups : List (MediaMetadata × List TorrentInfo))
    (st : BuildState) (metadata : MediaMetadata)
    (s : List Nat × String × String) :
    (s ∈ strmNodesChildren (buildStep groups st metadata).moviesNodes →
      s ∈ strmNodesChildren st.moviesNodes ∨ ∃ link tid, s = (strmContentBytes link, link, tid)) ∧
    (s ∈ strmNodesChildren (buildStep groups st metadata).showsNodes →
      s ∈ strmNodesChildren st.showsNodes ∨ ∃ link tid, s = (strmContentBytes link, link, tid)) := by
  unfold buildStep
  rcases metadata.media_type with _ | _
  all_goals dsimp only
  all_goals split
  all_goals constructor
  all_goals intro h
  all_goals try exact Or.inl h
  · -- movie arm, nodes inserted
    rcases strmNodesChildren_btInsert _ _ _ _ h with h1 | h2
    · exact Or.inl h1
    · simp only [strmNodes] at h2
      rcases strmNodesChildren_btInsert _ _ _ _ h2 with h3 | h4
      · obtain ⟨t0, _, link, hs⟩ := strmNodes_movieChildren _ _ h3
        exact Or.inr ⟨link, t0.id, hs⟩
      · simp only [strmNodes] at h4
        cases h4
  · -- show arm, nodes inserted
    rcases strmNodesChildren_btInsert _ _ _ _ h with h1 | h2
    · exact Or.inl h1
    · simp only [strmNodes] at h2
      rcases strmNodesChildren_btInsert _ _ _ _ h2 with h3 | h4
      · obtain ⟨t, _, link, hs⟩ := strmNodes_showChildrenOf _ _ h3
        exact Or.inr ⟨link, t.id, hs⟩
      · simp only [strmNodes] at h4
        cases h4

/-- Every stream node of the built tree carries a padded payload. -/
theorem strmNodes_build (input : List (TorrentInfo × MediaMetadata))
    (s : List Nat × String × String)
    (h : s ∈ strmNodesChildren (debridVfsBuild input)) :
    ∃ link tid, s = (strmContentBytes link, link, tid) := by
  unfold debridVfsBuild at h
  simp only [strmNodesChildren, strmNodes, List.append_nil, List.mem_append] at h
  suffices haux : ∀ (metas : List MediaMetadata) (st : BuildState),
      (s ∈ strmNodesChildren (metas.foldl (buildStep (groupsOf input)) st).moviesNodes →
        s ∈ strmNodesChildren st.moviesNodes ∨ ∃ link tid, s = (strmContentBytes link, link, tid)) ∧
      (s ∈ strmNodesChildren (metas.foldl (buildStep (groupsOf input)) st).showsNodes →
        s ∈ strmNodesChildren st.showsNodes ∨ ∃ link tid, s = (strmContentBytes link, link, tid)) by
    unfold debridVfsBuildState at h
    rcases h with h | h
    · rcases (haux _ _).1 h with h1 | h2
      · cases h1
      · exact h2
    · rcases (haux _ _).2 h with h1 | h2
      · cases h1
      · exact h2
  intro metas
  induction metas with
  | nil => intro st; exact ⟨fun h => Or.inl h, fun h => Or.inl h⟩
  | cons md mrest ih =>
      intro st
      constructor
      · intro h
        rw [List.foldl_cons] at h
        rcases (ih _).1 h with h1 | h2
        · rcases (strmNodes_buildStep _ st md s).1 h1 with h3 | h4
          · exact Or.inl h3
          · exact Or.inr h4
        · exact Or.inr h2
      · intro h
        rw [List.foldl_cons] at h
        rcases (ih _).2 h with h1 | h2
        · rcases (strmNodes_buildStep _ st md s).2 h1 with h3 | h4
          · exact Or.inl h3
          · exact Or.inr h4
        · exact Or.inr h2

/-- **C5.** Every stream-file node produced by `DebridVfs::build` stores a
payload of exactly 1024 bytes — the origin link plus a newline padded with
spaces (byte 32) whenever they fit, truncated otherwise by `Vec::resize` —
and the (spec-modelled) WebDAV metadata length of a stream file equals the
length of that stored payload. -/
theorem c5_strm_payload_metadata :
    (∀ (input : List (TorrentInfo × MediaMetadata))
        (s : List Nat × String × String),
        s ∈ strmNodesChildren (debridVfsBuild input) →
        s.1.length = 1024 ∧
          metaLen (.strmFile s.1 s.2.1 s.2.2) = s.1.length ∧
          s.1 = strmContentBytes s.2.1) ∧
    (∀ link : String,
        (utf8Bytes (link ++ "\n")).length ≤ 1024 →
        strmContentBytes link =
          utf8Bytes (link ++ "\n") ++
            List.replicate (1024 - (utf8Bytes (link ++ "\n")).length) 32) := by
  constructor
  · intro input s h
    obtain ⟨link, tid, hs⟩ := strmNodes_build input s h
    subst hs
    exact ⟨strmContentBytes_length link, rfl, rfl⟩
  · intro link hle
    unfold strmContentBytes listResize STRM_FIXED_SIZE
    rcases Nat.lt_or_ge (utf8Bytes (link ++ "\n")).length 1024 with hlt | hge
    · rw [if_neg (by omega)]
    · have : (utf8Bytes (link ++ "\n")).length = 1024 := le_antisymm hle hge
      rw [if_pos (by omega), this]
      simp [List.take_of_length_le, this.le]

/-- Concrete build used by the C5 and C6 witnesses: the spec's movie
deduplication scenario (two torrents, same metadata, 1 KB and 5 KB). -/
def c6SmallTorrent : TorrentInfo :=
  { id := "small", filename := "Movie.small.mkv", hash := "h1", bytes := 1000,
    status := "downloaded",
    files := [{ id := 1, path := "/Movie.mkv", bytes := 1000, selected := 1 }],
    links := ["http://small"] }

def c6LargeTorrent : TorrentInfo :=
  { id := "large", filename := "Movie.large.mkv", hash := "h2", bytes := 5000,
    status := "downloaded",
    files := [{ id := 1, path := "/Movie.mkv", bytes := 5000, selected := 1 }],
    links := ["http://large"] }

def c6Meta : MediaMetadata :=
  { title := "Duplicate Movie", year := some "2023", media_type := .movie,
    external_id := some "tmdb:123" }

/-- Witness for C5 at the concrete two-torrent build: the single stream
file's payload is 1024 bytes and the modelled metadata length agrees. -/
theorem c5_strm_payload_metadata_witness :
    ∀ s ∈ strmNodesChildren
        (debridVfsBuild [(c6SmallTorrent, c6Meta), (c6LargeTorrent, c6Meta)]),
      s.1.length = 1024 ∧ metaLen (.strmFile s.1 s.2.1 s.2.2) = s.1.length := by
  intro s h
  obtain ⟨h1, h2, _⟩ := c5_strm_payload_metadata.1 _ s h
  exact ⟨h1, h2⟩

/-! ### Movie deduplication by size (claim C6) -/

theorem mem_insSorted {α : Type} (lt : α → α → Bool) (x y : α)
    (l : List α) : y ∈ insSorted lt x l ↔ y = x ∨ y ∈ l := by
  induction l with
  | nil => simp [insSorted]
  | cons z zs ih =>
      unfold insSorted
      by_cases h : lt z x
      · rw [if_pos h]
        simp only [List.mem_cons, ih]
        tauto
      · rw [if_neg h]
        simp only [List.mem_cons]

theorem mem_stableSortBy {α : Type} (lt : α → α → Bool) (y : α)
    (l : List α) : y ∈ stableSortBy lt l ↔ y ∈ l := by
  induction l with
  | nil => simp [stableSortBy]
  | cons z zs ih =>
      unfold stableSortBy at ih ⊢
      rw [List.foldr_cons, mem_insSorted, ih, List.mem_cons]

/-- The element inserted by `insSorted` under the descending-bytes order
never exceeds the resulting head. -/
theorem insSorted_head_bytes_self (x t0 : TorrentInfo) (l : List TorrentInfo)
    (h : (insSorted (fun a b => decide (b.bytes < a.bytes)) x l).head? = some t0) :
    x.bytes ≤ t0.bytes := by
  match l with
  | [] =>
      simp only [insSorted, List.head?] at h
      cases h
      exact Nat.le_refl _
  | y :: ys =>
      unfold insSorted at h
      by_cases hlt : x.bytes < y.bytes
      · rw [if_pos (by simpa using hlt)] at h
        simp only [List.head?] at h
        cases h
        exact Nat.le_of_lt hlt
      · rw [if_neg (by simpa using hlt)] at h
        simp only [List.head?] at h
        cases h
        exact Nat.le_refl _

/-- `insSorted` under the descending-bytes order never lowers the head. -/
theorem insSorted_head_bytes_old (x t0 t1 : TorrentInfo) (l : List TorrentInfo)
    (h : (insSorted (fun a b => decide (b.bytes < a.bytes)) x l).head? = some t0)
    (h1 : l.head? = some t1) : t1.bytes ≤ t0.bytes := by
  match l with
  | [] => cases h1
  | y :: ys =>
      simp only [List.head?] at h1
      cases h1
      unfold insSorted at h
      by_cases hlt : x.bytes < t1.bytes
      · rw [if_pos (by simpa using hlt)] at h
        simp only [List.head?] at h
        cases h
        exact Nat.le_refl _
      · rw [if_neg (by simpa using hlt)] at h
        simp only [List.head?] at h
        cases h
        exact Nat.le_of_not_lt hlt

/-- The head of `sort_by_key(|t| Reverse(t.bytes))` has maximal `bytes`. -/
theorem sortByBytesDesc_head_max (l : List TorrentInfo) :
    ∀ t0, (sortByBytesDesc l).head? = some t0 →
      ∀ t ∈ l, t.bytes ≤ t0.bytes := by
  induction l with
  | nil => intro t0 h t ht; cases ht
  | cons x xs ih =>
      intro t0 h t ht
      have hx : sortByBytesDesc (x :: xs) =
          insSorted (fun a b => decide (b.bytes < a.bytes)) x
            (sortByBytesDesc xs) := rfl
      rw [hx] at h
      rcases List.mem_cons.mp ht with h1 | h2
      · subst h1
        exact insSorted_head_bytes_self _ _ _ h
      · rcases hh : (sortByBytesDesc xs).head? with _ | t1
        · exfalso
          have hmem := (mem_stableSortBy
            (fun a b => decide (b.bytes < a.bytes)) t xs).mpr h2
          rcases hsort : sortByBytesDesc xs with _ | ⟨a, as⟩
          · rw [sortByBytesDesc] at hsort
            rw [hsort] at hmem
            cases hmem
          · rw [hsort] at hh
            cases hh
        · exact Nat.le_trans (ih t1 hh t h2)
            (insSorted_head_bytes_old _ _ _ _ h hh)

theorem sortByBytesDesc_head_mem (l : List TorrentInfo) (t0 : TorrentInfo)
    (h : (sortByBytesDesc l).head? = some t0) : t0 ∈ l := by
  have : t0 ∈ sortByBytesDesc l := by
    rcases hsort : sortByBytesDesc l with _ | ⟨a, as⟩
    · rw [hsort] at h; cases h
    · rw [hsort] at h
      simp only [List.head?] at h
      cases h
      exact List.mem_cons_self _ _
  exact (mem_stableSortBy _ _ _).mp (by rw [sortByBytesDesc] at this; exact this)

/-- **C6.** The Movie arm of `DebridVfs::build` emits stream files only from
the group's torrent of maximal `bytes` (the head of the stable descending
sort, which is a member of the group); at the spec's concrete two-torrent
deduplication scenario, the built tree holds exactly one stream file and its
origin torrent id is the larger torrent's id, `"large"`. -/
theorem c6_movie_dedup_largest :
    (∀ (ts : List TorrentInfo) (t0 : TorrentInfo),
        (sortByBytesDesc ts).head? = some t0 →
        t0 ∈ ts ∧ (∀ t ∈ ts, t.bytes ≤ t0.bytes) ∧
          ∀ s ∈ strmNodesChildren (movieChildren (sortByBytesDesc ts)),
            s.2.2 = t0.id) ∧
    (strmNodesChildren
        (debridVfsBuild [(c6SmallTorrent, c6Meta), (c6LargeTorrent, c6Meta)])).map
      (fun s => s.2.2) = ["large"] := by
  constructor
  · intro ts t0 h
    refine ⟨sortByBytesDesc_head_mem ts t0 h, sortByBytesDesc_head_max ts t0 h, ?_⟩
    intro s hs
    obtain ⟨t1, ht1, link, hlink⟩ := strmNodes_movieChildren _ _ hs
    rw [h] at ht1
    cases ht1
    rw [hlink]
  · rfl

/-- Witness for C6: the larger torrent is the sorted head, dominates the
group, and supplies the only stream file of the concrete build. -/
theorem c6_movie_dedup_largest_witness :
    c6LargeTorrent ∈ [c6SmallTorrent, c6LargeTorrent] ∧
      c6SmallTorrent.bytes ≤ c6LargeTorrent.bytes ∧
      (strmNodesChildren
          (debridVfsBuild [(c6SmallTorrent, c6Meta), (c6LargeTorrent, c6Meta)])).map
        (fun s => s.2.2) = ["large"] := by
  obtain ⟨hmem, hmax, _⟩ :=
    c6_movie_dedup_largest.1 [c6SmallTorrent, c6LargeTorrent] c6LargeTorrent rfl
  exact ⟨hmem, hmax c6SmallTorrent (List.mem_cons_self _ _),
    c6_movie_dedup_largest.2⟩

/-! ### No empty group folders (claim C10) -/

/-- A file that is unselected or not a video contributes nothing to
`add_torrent_files`. -/
theorem addTorrentFiles_fold_no_video (t : TorrentInfo) (p : Option String)
    (fs : List TorrentFile) :
    ∀ acc : List (String × VfsNode) × Nat,
      (∀ f ∈ fs, ¬(f.selected = 1 ∧ isVideoFile f.path = true)) →
      (fs.foldl (addTorrentFilesStep t p) acc).1 = acc.1 := by
  induction fs with
  | nil => intro acc _; rfl
  | cons f frest ih =>
      intro acc h
      rw [List.foldl_cons]
      rw [ih _ (fun g hg => h g (List.mem_cons_of_mem _ hg))]
      obtain ⟨d, idx⟩ := acc
      have hf := h f (List.mem_cons_self _ _)
      unfold addTorrentFilesStep
      dsimp only
      by_cases hsel : f.selected = 1
      · have hvid : ¬ isVideoFile f.path = true := fun hv => hf ⟨hsel, hv⟩
        rw [if_pos hsel, if_neg hvid]
      · rw [if_neg hsel]

theorem addShowTorrent_fold_no_video (t : TorrentInfo)
    (fs : List TorrentFile) :
    ∀ acc : List (String × VfsNode) × Nat,
      (∀ f ∈ fs, ¬(f.selected = 1 ∧ isVideoFile f.path = true)) →
      (fs.foldl (addShowFileStep t) acc).1 = acc.1 := by
  induction fs with
  | nil => intro acc _; rfl
  | cons f frest ih =>
      intro acc h
      rw [List.foldl_cons]
      rw [ih _ (fun g hg => h g (List.mem_cons_of_mem _ hg))]
      obtain ⟨d, idx⟩ := acc
      have hf := h f (List.mem_cons_self _ _)
      unfold addShowFileStep
      dsimp only
      by_cases hsel : f.selected = 1
      · have hvid : ¬ isVideoFile f.path = true := fun hv => hf ⟨hsel, hv⟩
        rw [if_pos hsel, if_neg hvid]
      · rw [if_neg hsel]

theorem movieChildren_no_video (ts : List TorrentInfo)
    (h : ∀ t ∈ ts, ∀ f ∈ t.files, ¬(f.selected = 1 ∧ isVideoFile f.path = true)) :
    movieChildren ts = [] := by
  unfold movieChildren
  rcases hh : ts.head? with _ | t
  · rfl
  · have ht : t ∈ ts := by
      cases ts with
      | nil => cases hh
      | cons a as =>
          simp only [List.head?] at hh
          cases hh
          exact List.mem_cons_self _ _
    exact addTorrentFiles_fold_no_video t none t.files (_, 0) (h t ht)

theorem showChildrenOf_no_video (ts : List TorrentInfo)
    (h : ∀ t ∈ ts, ∀ f ∈ t.files, ¬(f.selected = 1 ∧ isVideoFile f.path = true)) :
    showChildrenOf ts = [] := by
  unfold showChildrenOf
  suffices haux : ∀ (l : List TorrentInfo) (acc : List (String × VfsNode)),
      (∀ t ∈ l, ∀ f ∈ t.files, ¬(f.selected = 1 ∧ isVideoFile f.path = true)) →
      l.foldl addShowTorrent acc = acc from haux ts [] h
  intro l
  induction l with
  | nil => intro acc _; rfl
  | cons t trest ih =>
      intro acc hl
      rw [List.foldl_cons]
      have hstep : addShowTorrent acc t = acc :=
        addShowTorrent_fold_no_video t t.files (acc, 0)
          (hl t (List.mem_cons_self _ _))
      rw [hstep]
      exact ih acc (fun u hu => hl u (List.mem_cons_of_mem _ hu))

/-- `entry(..).or_default().push(..)`: the updated map holds the appended
group under its key and every other group unchanged. -/
theorem groupGet_updateGroup (acc : List (MediaMetadata × List TorrentInfo))
    (md0 md : MediaMetadata) (t0 : TorrentInfo) :
    groupGet (updateGroup acc md0 t0) md =
      if md0 = md then some ((groupGet acc md).getD [] ++ [t0])
      else groupGet acc md := by
  induction acc with
  | nil =>
      simp only [updateGroup, groupGet]
      by_cases hmd : md0 = md
      · rw [if_pos hmd, if_pos hmd]
        rfl
      · rw [if_neg hmd, if_neg hmd]
  | cons hd rest ih =>
      obtain ⟨md1, ts⟩ := hd
      unfold updateGroup
      by_cases h10 : md1 = md0
      · rw [if_pos h10]
        subst h10
        unfold groupGet
        by_cases h1 : md1 = md
        · subst h1
          rw [if_pos rfl, if_pos rfl, if_pos rfl]
          rfl
        · rw [if_neg h1, if_neg h1, if_neg h1]
      · rw [if_neg h10]
        unfold groupGet
        by_cases h1 : md1 = md
        · subst h1
          rw [if_pos rfl, if_pos rfl]
          have h01 : ¬ md0 = md1 := fun h => h10 h.symm
          rw [if_neg h01]
        · rw [if_neg h1, if_neg h1, ih]

/-- Every torrent of a group of `groups` came from the input paired with
that group's metadata. -/
theorem groupsOf_mem (input : List (TorrentInfo × MediaMetadata))
    (md : MediaMetadata) (ts : List TorrentInfo)
    (hget : groupGet (groupsOf input) md = some ts) :
    ∀ t ∈ ts, (t, md) ∈ input := by
  suffices haux : ∀ (l : List (TorrentInfo × MediaMetadata))
      (acc : List (MediaMetadata × List TorrentInfo)) (ts : List TorrentInfo)
      (t : TorrentInfo),
      groupGet (l.foldl (fun acc tm => updateGroup acc tm.2 tm.1) acc) md = some ts →
      t ∈ ts →
      (t, md) ∈ l ∨ ∃ ts0, groupGet acc md = some ts0 ∧ t ∈ ts0 by
    intro t ht
    rcases haux input [] ts t hget ht with h1 | ⟨ts0, h2, _⟩
    · exact h1
    · cases h2
  intro l
  induction l with
  | nil =>
      intro acc ts t hg ht
      exact Or.inr ⟨ts, hg, ht⟩
  | cons p rest ih =>
      intro acc ts t hg ht
      rw [List.foldl_cons] at hg
      rcases ih _ ts t hg ht with h1 | ⟨ts0, h2, ht0⟩
      · exact Or.inl (List.mem_cons_of_mem _ h1)
      · rw [groupGet_updateGroup] at h2
        by_cases hmd : p.2 = md
        · rw [if_pos hmd] at h2
          cases h2
          rcases List.mem_append.mp ht0 with h3 | h4
          · rcases hacc : groupGet acc md with _ | ts1
            · rw [hacc] at h3
              cases h3
            · rw [hacc] at h3
              exact Or.inr ⟨ts1, rfl, h3⟩
          · have : t = p.1 := List.mem_singleton.mp h4
            subst this
            subst hmd
            exact Or.inl (List.mem_cons_self _ _)
        · rw [if_neg hmd] at h2
          exact Or.inr ⟨ts0, h2, ht0⟩

/-- **C10.** A metadata group none of whose torrents contributes a stream
file (no file is both selected and a video) leaves both top-level maps of
the build loop untouched: no folder and no NFO sidecar appear under
`Movies/` or `Shows/`; consequently an input all of whose files are
non-emitting builds a tree with empty `Movies/` and `Shows/`. -/
theorem c10_no_empty_group_folders :
    (∀ (groups : List (MediaMetadata × List TorrentInfo)) (st : BuildState)
        (md : MediaMetadata),
        (∀ t ∈ (groupGet groups md).getD [],
          ∀ f ∈ t.files, ¬(f.selected = 1 ∧ isVideoFile f.path = true)) →
        (buildStep groups st md).moviesNodes = st.moviesNodes ∧
          (buildStep groups st md).showsNodes = st.showsNodes) ∧
    (∀ input : List (TorrentInfo × MediaMetadata),
        (∀ p ∈ input, ∀ f ∈ p.1.files,
          ¬(f.selected = 1 ∧ isVideoFile f.path = true)) →
        debridVfsBuild input =
          [("Movies", .directory []), ("Shows", .directory [])]) := by
  have hstep : ∀ (groups : List (MediaMetadata × List TorrentInfo))
      (st : BuildState) (md : MediaMetadata),
      (∀ t ∈ (groupGet groups md).getD [],
        ∀ f ∈ t.files, ¬(f.selected = 1 ∧ isVideoFile f.path = true)) →
      (buildStep groups st md).moviesNodes = st.moviesNodes ∧
        (buildStep groups st md).showsNodes = st.showsNodes := by
    intro groups st md h
    have hsorted : ∀ t ∈ sortByBytesDesc ((groupGet groups md).getD []),
        ∀ f ∈ t.files, ¬(f.selected = 1 ∧ isVideoFile f.path = true) :=
      fun t ht => h t ((mem_stableSortBy _ _ _).mp ht)
    have hmc := movieChildren_no_video _ hsorted
    have hsc := showChildrenOf_no_video _ hsorted
    unfold buildStep
    rcases md.media_type
    · dsimp only
      rcases hfn : folderNameOf md st.usedMovieNames with ⟨fn, used⟩
      rw [hmc]
      simp
    · dsimp only
      rcases hfn : folderNameOf md st.usedShowNames with ⟨fn, used⟩
      rw [hsc]
      simp
  refine ⟨hstep, ?_⟩
  intro input h
  have hfold : ∀ (metas : List MediaMetadata) (st : BuildState),
      ((metas.foldl (buildStep (groupsOf input)) st).moviesNodes =
        st.moviesNodes) ∧
      ((metas.foldl (buildStep (groupsOf input)) st).showsNodes =
        st.showsNodes) := by
    intro metas
    induction metas with
    | nil => intro st; exact ⟨rfl, rfl⟩
    | cons md mrest ih =>
        intro st
        rw [List.foldl_cons]
        have hgrp : ∀ t ∈ (groupGet (groupsOf input) md).getD [],
            ∀ f ∈ t.files, ¬(f.selected = 1 ∧ isVideoFile f.path = true) := by
          intro t ht
          rcases hg : groupGet (groupsOf input) md with _ | ts
          · rw [hg] at ht
            cases ht
          · rw [hg] at ht
            exact h (t, md) (groupsOf_mem input md ts hg t ht)
        obtain ⟨hm, hs⟩ := hstep (groupsOf input) st md hgrp
        obtain ⟨hm2, hs2⟩ := ih (buildStep (groupsOf input) st md)
        exact ⟨hm2.trans hm, hs2.trans hs⟩
  unfold debridVfsBuild debridVfsBuildState
  dsimp only
  obtain ⟨hm, hs⟩ := hfold
    (stableSortBy (fun a b => decide (cmpMeta a b = .lt))
      ((groupsOf input).map (·.1))) ⟨[], [], [], []⟩
  rw [hm, hs]

def c10Torrent : TorrentInfo :=
  { id := "arch", filename := "Archive.rar", hash := "h3", bytes := 7000,
    status := "downloaded",
    files := [{ id := 1, path := "/Archive.rar", bytes := 7000, selected := 1 }],
    links := ["http://arch"] }

def c10Meta : MediaMetadata :=
  { title := "Archive Only", year := none, media_type := .movie,
    external_id := none }

/-- Witness for C10: a group whose lone torrent holds only a selected
`.rar` produces no folder, and building from it alone yields empty
`Movies/` and `Shows/`. -/
theorem c10_no_empty_group_folders_witness :
    (buildStep [(c10Meta, [c10Torrent])]
        ⟨[], [], [("X", .directory [])], [("Y", .directory [])]⟩
        c10Meta).moviesNodes = [("X", .directory [])] ∧
    (buildStep [(c10Meta, [c10Torrent])]
        ⟨[], [], [("X", .directory [])], [("Y", .directory [])]⟩
        c10Meta).showsNodes = [("Y", .directory [])] ∧
    debridVfsBuild [(c10Torrent, c10Meta)] =
      [("Movies", .directory []), ("Shows", .directory [])] := by
  obtain ⟨hm, hs⟩ := c10_no_empty_group_folders.1 [(c10Meta, [c10Torrent])]
    ⟨[], [], [("X", .directory [])], [("Y", .directory [])]⟩ c10Meta
    (by decide)
  exact ⟨hm, hs,
    c10_no_empty_group_folders.2 [(c10Torrent, c10Meta)] (by decide)⟩

/-! ### Tree diffing (`diff_trees`, src/vfs.rs lines 429-556) -/

/-- `UpdateType` from src/vfs.rs lines 62-66. -/
inductive UpdateType where
  | created
  | modified
  | deleted
deriving Repr, DecidableEq

/-- `VfsChange` from src/vfs.rs lines 69-72. -/
structure VfsChange where
  path : String
  update_type : UpdateType
deriving Repr, DecidableEq

/-- The child-path rule of `diff_trees`: `name` when the prefix is empty,
otherwise `format!("{}/{}", prefix, name)`. -/
def childPathOf (pfx name : String) : String :=
  if pfx = "" then name else pfx ++ "/" ++ name

/-- The directory-valued children of a map
(the `filter_map` of `find_deepest_new_dir`). -/
def dirChildrenOf (cs : List (String × VfsNode)) :
    List (String × List (String × VfsNode)) :=
  cs.filterMap (fun e =>
    match e.2 with
    | .directory c => some (e.1, c)
    | _ => none)

mutual

/-- Structural size of a node, used as fuel for `find_deepest_new_dir`. -/
def nodeSize : VfsNode → Nat
  | .directory cs => 1 + childrenSize cs
  | _ => 1

def childrenSize : List (String × VfsNode) → Nat
  | [] => 1
  | (_, v) :: rest => 1 + nodeSize v + childrenSize rest

end

/-- The recursion of `find_deepest_new_dir`, on explicit fuel; the caller
passes `childrenSize children`, which bounds the descent depth, so the
fuel-exhausted arm is unreachable. -/
def findDeepestAux : Nat → String → List (String × VfsNode) → String
  | 0, path, _ => path
  | fuel + 1, path, cs =>
      match dirChildrenOf cs with
      | [(name, sub)] => findDeepestAux fuel (path ++ "/" ++ name) sub
      | _ => path

/-- `find_deepest_new_dir` (src/vfs.rs lines 537-556): walk down while there
is exactly one child directory. -/
def findDeepestNewDir (path : String) (cs : List (String × VfsNode)) : String :=
  findDeepestAux (childrenSize cs) path cs

/-- The second loop of `diff_trees` (src/vfs.rs lines 501-522) over the new
children: names absent from the old map yield a `Created` event at the
deepest new directory, or a leaf-change flag. -/
def diffNewPass (oldC : List (String × VfsNode)) :
    List (String × VfsNode) → String → List VfsChange × Bool
  | [], _ => ([], false)
  | (name, newChild) :: rest, pfx =>
      let one : List VfsChange × Bool :=
        if (alGet oldC name).isSome then ([], false)
        else
          match newChild with
          | .directory children =>
              ([⟨findDeepestNewDir (childPathOf pfx name) children, .created⟩],
                false)
          | _ => ([], true)
      let r := diffNewPass oldC rest pfx
      (one.1 ++ r.1, one.2 || r.2)

mutual

/-- `diff_trees` (src/vfs.rs lines 429-533).  Changes are collected in
iteration order: the old-children loop, then the new-children loop, then —
when a leaf-level change was flagged and the prefix is nonempty — a single
`Modified` event at the prefix. -/
def diffTrees (old new : VfsNode) (pfx : String) : List VfsChange :=
  match old, new with
  | .directory oldC, .directory newC =>
      let op := diffOldPass oldC newC pfx
      let np := diffNewPass oldC newC pfx
      let changes := op.1 ++ np.1
      if (op.2 || np.2) && decide (¬ pfx = "") then
        changes ++ [⟨pfx, .modified⟩]
      else changes
  | _, _ => []
termination_by structural old

/-- The first loop of `diff_trees` (src/vfs.rs lines 470-499) over the old
children, returning the collected changes and the leaf-change flag. -/
def diffOldPass (oldC newC : List (String × VfsNode)) (pfx : String) :
    List VfsChange × Bool :=
  match oldC with
  | [] => ([], false)
  | (name, oldChild) :: rest =>
      let childPath := childPathOf pfx name
      let one : List VfsChange × Bool :=
        match alGet newC name with
        | none =>
            match oldChild with
            | .directory _ => ([⟨childPath, .deleted⟩], false)
            | _ => ([], true)
        | some newChild =>
            match oldChild, newChild with
            | .directory _, .directory _ =>
                let sub := diffTrees oldChild newChild childPath
                if sub = [] ∧ ¬ oldChild = newChild then
                  ([⟨childPath, .modified⟩], false)
                else (sub, false)
            | _, _ =>
                if oldChild = newChild then ([], false) else ([], true)
      let r := diffOldPass rest newC pfx
      (one.1 ++ r.1, one.2 || r.2)
termination_by structural oldC

end

/-- Resolve a component path inside a node. -/
def resolveNode : VfsNode → List String → Option VfsNode
  | node, [] => some node
  | .directory cs, p :: rest =>
      match alGet cs p with
      | some c => resolveNode c rest
      | none => none
  | _, _ :: _ => none

/-- Join path components onto a prefix with the child-path rule. -/
def joinParts (pfx : String) (rel : List String) : String :=
  rel.foldl childPathOf pfx

/-- Map keys are pairwise distinct and nonempty (the `BTreeMap` key
invariant, as produced by the build). -/
def keysOk : List (String × VfsNode) → Bool
  | [] => true
  | (a, _) :: rest =>
      decide (¬ a = "") && rest.all (fun e => decide (¬ e.1 = a)) && keysOk rest

/-- Is the node a directory? -/
def isDirNode : VfsNode → Bool
  | .directory _ => true
  | _ => false

mutual

/-- Well-formed tree: every directory level has distinct nonempty keys. -/
def nodeWF : VfsNode → Bool
  | .directory cs => keysOk cs && childrenWF cs
  | _ => true

def childrenWF : List (String × VfsNode) → Bool
  | [] => true
  | (_, v) :: rest => nodeWF v && childrenWF rest

end

/-- The spec's wording for `find_deepest_new_dir`: the deepest descendant
reachable from a newly created directory by following, at each level, a
single child directory.  Stated from the spec to compare against the source
function. -/
inductive DeepestSingleBranch :
    String → List (String × VfsNode) → String → Prop where
  | stop (path : String) (cs : List (String × VfsNode)) :
      (dirChildrenOf cs).length ≠ 1 → DeepestSingleBranch path cs path
  | step (path : String) (cs : List (String × VfsNode)) (n : String)
      (sub : List (String × VfsNode)) (res : String) :
      dirChildrenOf cs = [(n, sub)] →
      DeepestSingleBranch (path ++ "/" ++ n) sub res →
      DeepestSingleBranch path cs res

theorem childrenSize_pos (cs : List (String × VfsNode)) :
    1 ≤ childrenSize cs := by
  match cs with
  | [] => exact Nat.le_refl _
  | (k, v) :: rest =>
      unfold childrenSize
      omega

theorem dirChildrenOf_mem (cs : List (String × VfsNode)) (n : String)
    (sub : List (String × VfsNode)) (h : (n, sub) ∈ dirChildrenOf cs) :
    (n, .directory sub) ∈ cs := by
  induction cs with
  | nil => cases h
  | cons e rest ih =>
      obtain ⟨k, v⟩ := e
      unfold dirChildrenOf at h
      rw [List.filterMap_cons] at h
      match v, h with
      | .directory c, h =>
          simp only at h
          rcases List.mem_cons.mp h with h1 | h2
          · cases h1
            exact List.mem_cons_self _ _
          · exact List.mem_cons_of_mem _ (ih h2)
      | .strmFile a b c, h => exact List.mem_cons_of_mem _ (ih h)
      | .virtualFile a, h => exact List.mem_cons_of_mem _ (ih h)

theorem nodeSize_of_mem (cs : List (String × VfsNode)) (k : String)
    (v : VfsNode) (h : (k, v) ∈ cs) : nodeSize v < childrenSize cs := by
  induction cs with
  | nil => cases h
  | cons e rest ih =>
      obtain ⟨k0, v0⟩ := e
      rcases List.mem_cons.mp h with h1 | h2
      · cases h1
        unfold childrenSize
        omega
      · have := ih h2
        unfold childrenSize
        omega

theorem childrenSize_dirChild (cs : List (String × VfsNode)) (n : String)
    (sub : List (String × VfsNode)) (h : (n, sub) ∈ dirChildrenOf cs) :
    childrenSize sub < childrenSize cs := by
  have hm := nodeSize_of_mem cs n (.directory sub) (dirChildrenOf_mem cs n sub h)
  have : nodeSize (.directory sub) = 1 + childrenSize sub := rfl
  omega

theorem alGet_mem {α : Type} (cs : List (String × α)) (k : String) (v : α)
    (h : alGet cs k = some v) : (k, v) ∈ cs := by
  induction cs with
  | nil => cases h
  | cons e rest ih =>
      obtain ⟨k0, v0⟩ := e
      unfold alGet at h
      by_cases hk : k0 = k
      · rw [if_pos hk] at h
        cases h
        subst hk
        exact List.mem_cons_self _ _
      · rw [if_neg hk] at h
        exact List.mem_cons_of_mem _ (ih h)

theorem alGet_of_mem_keysOk (cs : List (String × VfsNode)) (k : String)
    (v : VfsNode) (hok : keysOk cs = true) (h : (k, v) ∈ cs) :
    alGet cs k = some v := by
  induction cs with
  | nil => cases h
  | cons e rest ih =>
      obtain ⟨k0, v0⟩ := e
      have hok' : ((¬ k0 = "") ∧ ∀ a b, (a, b) ∈ rest → ¬ a = k0) ∧
          keysOk rest = true := by
        simpa [keysOk, Bool.and_eq_true, List.all_eq_true] using hok
      rcases List.mem_cons.mp h with h1 | h2
      · cases h1
        unfold alGet
        rw [if_pos rfl]
      · unfold alGet
        by_cases hk : k0 = k
        · exfalso
          exact hok'.1.2 k v h2 hk.symm
        · rw [if_neg hk]
          exact ih hok'.2 h2

theorem childrenWF_mem (cs : List (String × VfsNode)) (k : String)
    (v : VfsNode) (hwf : childrenWF cs = true) (h : (k, v) ∈ cs) :
    nodeWF v = true := by
  induction cs with
  | nil => cases h
  | cons e rest ih =>
      obtain ⟨k0, v0⟩ := e
      have hwf' : nodeWF v0 = true ∧ childrenWF rest = true := by
        simpa [childrenWF, Bool.and_eq_true] using hwf
      rcases List.mem_cons.mp h with h1 | h2
      · cases h1
        exact hwf'.1
      · exact ih hwf'.2 h2

theorem findDeepestAux_succ (fuel : Nat) (path : String)
    (cs : List (String × VfsNode)) :
    findDeepestAux (fuel + 1) path cs =
      match dirChildrenOf cs with
      | [(name, sub)] => findDeepestAux fuel (path ++ "/" ++ name) sub
      | _ => path := rfl

/-- The source `find_deepest_new_dir` refines the spec's description: it
lands on the deepest single-branch descendant. -/
theorem findDeepestAux_DSB (fuel : Nat) :
    ∀ (cs : List (String × VfsNode)) (path : String),
      childrenSize cs ≤ fuel →
      DeepestSingleBranch path cs (findDeepestAux fuel path cs) := by
  induction fuel with
  | zero =>
      intro cs path hle
      exact absurd (Nat.le_trans (childrenSize_pos cs) hle) (by omega)
  | succ fuel ih =>
      intro cs path hle
      rcases hdc : dirChildrenOf cs with _ | ⟨⟨n, sub⟩, more⟩
      · have heq : findDeepestAux (fuel + 1) path cs = path := by
          rw [findDeepestAux_succ, hdc]
        rw [heq]
        exact .stop path cs (by rw [hdc]; simp)
      · match more with
        | [] =>
            have hstep : findDeepestAux (fuel + 1) path cs =
                findDeepestAux fuel (path ++ "/" ++ n) sub := by
              rw [findDeepestAux_succ, hdc]
            rw [hstep]
            have hlt : childrenSize sub < childrenSize cs :=
              childrenSize_dirChild cs n sub
                (by rw [hdc]; exact List.mem_singleton.mpr rfl)
            exact .step path cs n sub _ hdc (ih sub _ (by omega))
        | m :: more2 =>
            have heq : findDeepestAux (fuel + 1) path cs = path := by
              rw [findDeepestAux_succ, hdc]
            rw [heq]
            exact .stop path cs (by rw [hdc]; simp)

theorem findDeepest_DSB (path : String) (cs : List (String × VfsNode)) :
    DeepestSingleBranch path cs (findDeepestNewDir path cs) :=
  findDeepestAux_DSB (childrenSize cs) cs path (Nat.le_refl _)

theorem str_append_ne_empty (a b : String) (h : ¬ a = "") : ¬ a ++ b = "" := by
  intro hab
  apply h
  have hd : a.data ++ b.data = [] := congrArg String.data hab
  have hn : a.data = [] := (List.append_eq_nil.mp hd).1
  cases a
  simp only [] at hn
  rw [hn]

/-- `find_deepest_new_dir` appends components that resolve, inside the new
directory, to a directory node. -/
theorem findDeepestAux_resolve (fuel : Nat) :
    ∀ (cs : List (String × VfsNode)) (path : String),
      childrenSize cs ≤ fuel → nodeWF (.directory cs) = true → ¬ path = "" →
      ∃ rel, findDeepestAux fuel path cs = joinParts path rel ∧
        ∃ cs2, resolveNode (.directory cs) rel = some (.directory cs2) := by
  induction fuel with
  | zero =>
      intro cs path hle _ _
      exact absurd (Nat.le_trans (childrenSize_pos cs) hle) (by omega)
  | succ fuel ih =>
      intro cs path hle hwf hpath
      have hwf' : keysOk cs = true ∧ childrenWF cs = true := by
        simpa [nodeWF, Bool.and_eq_true] using hwf
      rcases hdc : dirChildrenOf cs with _ | ⟨⟨n, sub⟩, more⟩
      · refine ⟨[], ?_, cs, rfl⟩
        rw [findDeepestAux_succ, hdc]
        rfl
      · match more with
        | [] =>
            have hmem : (n, VfsNode.directory sub) ∈ cs :=
              dirChildrenOf_mem cs n sub (by rw [hdc]; exact List.mem_singleton.mpr rfl)
            have hget : alGet cs n = some (.directory sub) :=
              alGet_of_mem_keysOk cs n _ hwf'.1 hmem
            have hsubwf : nodeWF (.directory sub) = true :=
              childrenWF_mem cs n _ hwf'.2 hmem
            have hlt : childrenSize sub < childrenSize cs :=
              childrenSize_dirChild cs n sub
                (by rw [hdc]; exact List.mem_singleton.mpr rfl)
            obtain ⟨rel, heq, cs2, hres⟩ :=
              ih sub (path ++ "/" ++ n) (by omega) hsubwf
                (str_append_ne_empty _ _ (str_append_ne_empty _ _ hpath))
            refine ⟨n :: rel, ?_, cs2, ?_⟩
            · have hstep : findDeepestAux (fuel + 1) path cs =
                  findDeepestAux fuel (path ++ "/" ++ n) sub := by
                rw [findDeepestAux_succ, hdc]
              rw [hstep, heq]
              have : joinParts path (n :: rel) =
                  joinParts (childPathOf path n) rel := rfl
              rw [this]
              unfold childPathOf
              rw [if_neg hpath]
            · unfold resolveNode
              rw [hget]
              exact hres
        | m :: more2 =>
            refine ⟨[], ?_, cs, rfl⟩
            rw [findDeepestAux_succ, hdc]
            rfl

theorem diffTrees_dir (oldC newC : List (String × VfsNode)) (pfx : String) :
    diffTrees (.directory oldC) (.directory newC) pfx =
      (let op := diffOldPass oldC newC pfx
       let np := diffNewPass oldC newC pfx
       let changes := op.1 ++ np.1
       if (op.2 || np.2) && decide (¬ pfx = "") then
         changes ++ [⟨pfx, .modified⟩]
       else changes) := rfl

theorem diffOldPass_cons (name : String) (child : VfsNode)
    (rest newC : List (String × VfsNode)) (pfx : String) :
    diffOldPass ((name, child) :: rest) newC pfx =
      (let childPath := childPathOf pfx name
       let one : List VfsChange × Bool :=
         match alGet newC name with
         | none =>
             match child with
             | .directory _ => ([⟨childPath, .deleted⟩], false)
             | _ => ([], true)
         | some newChild =>
             match child, newChild with
             | .directory _, .directory _ =>
                 let sub := diffTrees child newChild childPath
                 if sub = [] ∧ ¬ child = newChild then
                   ([⟨childPath, .modified⟩], false)
                 else (sub, false)
             | _, _ =>
                 if child = newChild then ([], false) else ([], true)
       let r := diffOldPass rest newC pfx
       (one.1 ++ r.1, one.2 || r.2)) := rfl

theorem diffNewPass_refl (ncs full : List (String × VfsNode)) (pfx : String)
    (hmem : ∀ e ∈ ncs, (alGet full e.1).isSome) :
    diffNewPass full ncs pfx = ([], false) := by
  induction ncs with
  | nil => rfl
  | cons e rest ih =>
      obtain ⟨name, child⟩ := e
      have h1 : (alGet full name).isSome :=
        hmem (name, child) (List.mem_cons_self _ _)
      unfold diffNewPass
      rw [if_pos h1, ih (fun g hg => hmem g (List.mem_cons_of_mem _ hg))]
      rfl

mutual

/-- Identical well-formed subtrees emit no change. -/
theorem diffTrees_refl (t : VfsNode) (pfx : String) (h : nodeWF t = true) :
    diffTrees t t pfx = [] := by
  match t with
  | .strmFile a b c => rfl
  | .virtualFile a => rfl
  | .directory cs =>
      have hk : keysOk cs = true ∧ childrenWF cs = true := by
        simpa [nodeWF, Bool.and_eq_true] using h
      have hop : diffOldPass cs cs pfx = ([], false) :=
        diffOldPass_refl cs cs pfx
          (fun e he => alGet_of_mem_keysOk cs e.1 e.2 hk.1 he) hk.2
      have hnp : diffNewPass cs cs pfx = ([], false) :=
        diffNewPass_refl cs cs pfx
          (fun e he => by
            rw [alGet_of_mem_keysOk cs e.1 e.2 hk.1 he]
            rfl)
      rw [diffTrees_dir, hop, hnp]
      simp

theorem diffOldPass_refl (cs full : List (String × VfsNode)) (pfx : String)
    (hmem : ∀ e ∈ cs, alGet full e.1 = some e.2)
    (hwf : childrenWF cs = true) :
    diffOldPass cs full pfx = ([], false) := by
  match cs with
  | [] => rfl
  | (name, child) :: rest =>
      have h1 : alGet full name = some child :=
        hmem (name, child) (List.mem_cons_self _ _)
      have hcw : nodeWF child = true ∧ childrenWF rest = true := by
        simpa [childrenWF, Bool.and_eq_true] using hwf
      have hrest : diffOldPass rest full pfx = ([], false) :=
        diffOldPass_refl rest full pfx
          (fun e he => hmem e (List.mem_cons_of_mem _ he)) hcw.2
      rw [diffOldPass_cons]
      dsimp only
      rw [h1, hrest]
      match child, hcw with
      | .directory oc, hcw =>
          dsimp only
          rw [diffTrees_refl (.directory oc) (childPathOf pfx name) hcw.1]
          simp
      | .strmFile a b c, hcw =>
          dsimp only
          simp
      | .virtualFile a, hcw =>
          dsimp only
          simp

end

theorem diffOldPass_only_dirs_changes (cs newC : List (String × VfsNode))
    (pfx : String)
    (hinv : ∀ e ∈ cs, ∀ oc, e.2 = VfsNode.directory oc →
      alGet newC e.1 = some e.2 ∧ nodeWF e.2 = true) :
    (diffOldPass cs newC pfx).1 = [] := by
  induction cs with
  | nil => rfl
  | cons e rest ih =>
      obtain ⟨name, child⟩ := e
      rw [diffOldPass_cons]
      dsimp only
      rw [ih (fun g hg => hinv g (List.mem_cons_of_mem _ hg))]
      rw [List.append_nil]
      rcases hget : alGet newC name with _ | newChild
      · match child, hinv with
        | .directory oc, hinv =>
            exfalso
            have := (hinv (name, .directory oc) (List.mem_cons_self _ _) oc rfl).1
            rw [hget] at this
            cases this
        | .strmFile a b c, hinv => rfl
        | .virtualFile a, hinv => rfl
      · match child, hinv with
        | .directory oc, hinv =>
            have hh := hinv (name, .directory oc) (List.mem_cons_self _ _) oc rfl
            have hb : newChild = .directory oc := by
              have h2 := hh.1
              rw [hget] at h2
              exact Option.some_inj.mp h2
            subst hb
            dsimp only
            rw [diffTrees_refl _ _ hh.2]
            simp
        | .strmFile a b c, hinv =>
            match newChild with
            | .directory nc => rfl
            | .strmFile a2 b2 c2 => dsimp only; split <;> rfl
            | .virtualFile a2 => rfl
        | .virtualFile a, hinv =>
            match newChild with
            | .directory nc => rfl
            | .strmFile a2 b2 c2 => rfl
            | .virtualFile a2 => dsimp only; split <;> rfl

theorem diffNewPass_changes_empty (ncs oldC : List (String × VfsNode))
    (pfx : String)
    (hinv : ∀ e ∈ ncs, ∀ oc, e.2 = VfsNode.directory oc →
      (alGet oldC e.1).isSome = true) :
    (diffNewPass oldC ncs pfx).1 = [] := by
  induction ncs with
  | nil => rfl
  | cons e rest ih =>
      obtain ⟨name, child⟩ := e
      unfold diffNewPass
      dsimp only
      rw [ih (fun g hg => hinv g (List.mem_cons_of_mem _ hg))]
      rw [List.append_nil]
      by_cases hs : (alGet oldC name).isSome = true
      · rw [if_pos hs]
      · rw [if_neg hs]
        match child, hinv with
        | .directory oc, hinv =>
            exact absurd (hinv (name, .directory oc)
              (List.mem_cons_self _ _) oc rfl) hs
        | .strmFile a b c, hinv => rfl
        | .virtualFile a, hinv => rfl

theorem diffOldPass_flag_none (cs newC : List (String × VfsNode))
    (pfx name : String) (child : VfsNode)
    (hmem : (name, child) ∈ cs) (hnone : alGet newC name = none)
    (hleaf : ∀ oc, ¬ child = VfsNode.directory oc) :
    (diffOldPass cs newC pfx).2 = true := by
  induction cs with
  | nil => cases hmem
  | cons e rest ih =>
      obtain ⟨name0, child0⟩ := e
      rw [diffOldPass_cons]
      dsimp only
      rcases List.mem_cons.mp hmem with h1 | h2
      · obtain ⟨he1, he2⟩ := Prod.mk.injEq .. ▸ h1
        subst he1
        subst he2
        rw [hnone]
        match child, hleaf with
        | .directory oc, hleaf => exact absurd rfl (hleaf oc)
        | .strmFile a b c, hleaf => rfl
        | .virtualFile a, hleaf => rfl
      · rw [ih h2]
        exact Bool.or_true _

theorem diffOldPass_flag_some (cs newC : List (String × VfsNode))
    (pfx name : String) (child b : VfsNode)
    (hmem : (name, child) ∈ cs) (hsome : alGet newC name = some b)
    (hne : ¬ child = b) (hleaf : ∀ oc, ¬ child = VfsNode.directory oc) :
    (diffOldPass cs newC pfx).2 = true := by
  induction cs with
  | nil => cases hmem
  | cons e rest ih =>
      obtain ⟨name0, child0⟩ := e
      rw [diffOldPass_cons]
      dsimp only
      rcases List.mem_cons.mp hmem with h1 | h2
      · obtain ⟨he1, he2⟩ := Prod.mk.injEq .. ▸ h1
        subst he1
        subst he2
        rw [hsome]
        match child, hne, hleaf with
        | .directory oc, hne, hleaf => exact absurd rfl (hleaf oc)
        | .strmFile a c d, hne, hleaf =>
            match b, hne with
            | .directory nc, hne => rfl
            | .strmFile a2 c2 d2, hne =>
                dsimp only
                rw [if_neg hne]
                rfl
            | .virtualFile a2, hne => rfl
        | .virtualFile a, hne, hleaf =>
            match b, hne with
            | .directory nc, hne => rfl
            | .strmFile a2 c2 d2, hne => rfl
            | .virtualFile a2, hne =>
                dsimp only
                rw [if_neg hne]
                rfl
      · rw [ih h2]
        exact Bool.or_true _

theorem diffNewPass_flag (ncs oldC : List (String × VfsNode))
    (pfx name : String) (b : VfsNode)
    (hmem : (name, b) ∈ ncs) (hnone : alGet oldC name = none)
    (hleaf : ∀ oc, ¬ b = VfsNode.directory oc) :
    (diffNewPass oldC ncs pfx).2 = true := by
  induction ncs with
  | nil => cases hmem
  | cons e rest ih =>
      obtain ⟨name0, child0⟩ := e
      unfold diffNewPass
      dsimp only
      rcases List.mem_cons.mp hmem with h1 | h2
      · obtain ⟨he1, he2⟩ := Prod.mk.injEq .. ▸ h1
        subst he1
        subst he2
        have hs : ¬ (alGet oldC name).isSome = true := by
          rw [hnone]
          simp
        rw [if_neg hs]
        match b, hleaf with
        | .directory oc, hleaf => exact absurd rfl (hleaf oc)
        | .strmFile a c d, hleaf => rfl
        | .virtualFile a, hleaf => rfl
      · rw [ih h2]
        exact Bool.or_true _

theorem diffOldPass_deleted_mem (cs newC : List (String × VfsNode))
    (pfx name : String) (oc : List (String × VfsNode))
    (hmem : (name, VfsNode.directory oc) ∈ cs)
    (hnone : alGet newC name = none) :
    (⟨childPathOf pfx name, .deleted⟩ : VfsChange) ∈
      (diffOldPass cs newC pfx).1 := by
  induction cs with
  | nil => cases hmem
  | cons e rest ih =>
      obtain ⟨name0, child0⟩ := e
      rw [diffOldPass_cons]
      dsimp only
      rcases List.mem_cons.mp hmem with h1 | h2
      · obtain ⟨he1, he2⟩ := Prod.mk.injEq .. ▸ h1
        subst he1
        subst he2
        rw [hnone]
        exact List.mem_append_left _ (List.mem_singleton.mpr rfl)
      · exact List.mem_append_right _ (ih h2)

theorem diffNewPass_created_mem (ncs oldC : List (String × VfsNode))
    (pfx name : String) (cs0 : List (String × VfsNode))
    (hmem : (name, VfsNode.directory cs0) ∈ ncs)
    (hnone : alGet oldC name = none) :
    (⟨findDeepestNewDir (childPathOf pfx name) cs0, .created⟩ : VfsChange) ∈
      (diffNewPass oldC ncs pfx).1 := by
  induction ncs with
  | nil => cases hmem
  | cons e rest ih =>
      obtain ⟨name0, child0⟩ := e
      unfold diffNewPass
      dsimp only
      rcases List.mem_cons.mp hmem with h1 | h2
      · obtain ⟨he1, he2⟩ := Prod.mk.injEq .. ▸ h1
        subst he1
        subst he2
        have hs : ¬ (alGet oldC name).isSome = true := by
          rw [hnone]
          simp
        rw [if_neg hs]
        exact List.mem_append_left _ (List.mem_singleton.mpr rfl)
      · exact List.mem_append_right _ (ih h2)

theorem diffTrees_mem_old (oldC newC : List (String × VfsNode)) (pfx : String)
    (c : VfsChange) (h : c ∈ (diffOldPass oldC newC pfx).1) :
    c ∈ diffTrees (.directory oldC) (.directory newC) pfx := by
  rw [diffTrees_dir]
  dsimp only
  split
  · exact List.mem_append_left _ (List.mem_append_left _ h)
  · exact List.mem_append_left _ h

theorem diffTrees_mem_new (oldC newC : List (String × VfsNode)) (pfx : String)
    (c : VfsChange) (h : c ∈ (diffNewPass oldC newC pfx).1) :
    c ∈ diffTrees (.directory oldC) (.directory newC) pfx := by
  rw [diffTrees_dir]
  dsimp only
  split
  · exact List.mem_append_left _ (List.mem_append_right _ h)
  · exact List.mem_append_right _ h

/-- A directory whose directory-valued children agree but whose leaf
children differ is reported as a single `Modified` event at the directory
itself — provided it is not the root. -/
theorem diffTrees_leaf_only (oldC newC : List (String × VfsNode)) (pfx : String)
    (hwfo : nodeWF (.directory oldC) = true)
    (hwfn : nodeWF (.directory newC) = true)
    (hdirs : ∀ e ∈ oldC ++ newC, isDirNode e.2 = true →
      alGet oldC e.1 = alGet newC e.1)
    (hdiff : ∃ e ∈ oldC ++ newC, ¬ alGet oldC e.1 = alGet newC e.1)
    (hpfx : ¬ pfx = "") :
    diffTrees (.directory oldC) (.directory newC) pfx = [⟨pfx, .modified⟩] := by
  have hwfo' : keysOk oldC = true ∧ childrenWF oldC = true := by
    simpa [nodeWF, Bool.and_eq_true] using hwfo
  have hwfn' : keysOk newC = true ∧ childrenWF newC = true := by
    simpa [nodeWF, Bool.and_eq_true] using hwfn
  have hop : (diffOldPass oldC newC pfx).1 = [] := by
    apply diffOldPass_only_dirs_changes
    intro e he oc hoc
    have he' : e ∈ oldC := by
      have h2 : e = (e.1, e.2) := rfl
      rw [h2] at he
      exact he
    have hg : alGet oldC e.1 = some e.2 :=
      alGet_of_mem_keysOk oldC e.1 e.2 hwfo'.1 he'
    have heq := hdirs e (List.mem_append_left _ he') (by rw [hoc]; rfl)
    refine ⟨?_, childrenWF_mem oldC e.1 e.2 hwfo'.2 he'⟩
    rw [← heq, hg]
  have hnp : (diffNewPass oldC newC pfx).1 = [] := by
    apply diffNewPass_changes_empty
    intro e he oc hoc
    have he' : e ∈ newC := by
      have h2 : e = (e.1, e.2) := rfl
      rw [h2] at he
      exact he
    have hg : alGet newC e.1 = some e.2 :=
      alGet_of_mem_keysOk newC e.1 e.2 hwfn'.1 he'
    have heq := hdirs e (List.mem_append_right _ he') (by rw [hoc]; rfl)
    rw [heq, hg]
    rfl
  have hflag : ((diffOldPass oldC newC pfx).2 ||
      (diffNewPass oldC newC pfx).2) = true := by
    obtain ⟨e, hemem, hne⟩ := hdiff
    rcases ho : alGet oldC e.1 with _ | a
    · rcases hn : alGet newC e.1 with _ | b
      · exact absurd (ho.trans hn.symm) hne
      · have hbleaf : ∀ oc, ¬ b = VfsNode.directory oc := by
          intro oc hb
          subst hb
          refine hne (hdirs (e.1, .directory oc)
            (List.mem_append_right _ (alGet_mem _ _ _ hn)) rfl)
        rw [diffNewPass_flag newC oldC pfx e.1 b (alGet_mem _ _ _ hn) ho hbleaf]
        exact Bool.or_true _
    · have haleaf : ∀ oc, ¬ a = VfsNode.directory oc := by
        intro oc ha
        subst ha
        refine hne (hdirs (e.1, .directory oc)
          (List.mem_append_left _ (alGet_mem _ _ _ ho)) rfl)
      rcases hn : alGet newC e.1 with _ | b
      · rw [diffOldPass_flag_none oldC newC pfx e.1 a (alGet_mem _ _ _ ho)
          hn haleaf]
        rfl
      · have hab : ¬ a = b := by
          intro hcontra
          subst hcontra
          exact hne (by rw [ho, hn])
        rw [diffOldPass_flag_some oldC newC pfx e.1 a b (alGet_mem _ _ _ ho)
          hn hab haleaf]
        rfl
  rw [diffTrees_dir]
  dsimp only
  rw [hop, hnp, hflag]
  simp [hpfx]

theorem keysOk_ne_empty (cs : List (String × VfsNode))
    (hok : keysOk cs = true) (k : String) (v : VfsNode)
    (h : (k, v) ∈ cs) : ¬ k = "" := by
  induction cs with
  | nil => cases h
  | cons e rest ih =>
      obtain ⟨k0, v0⟩ := e
      have hok' : ((¬ k0 = "") ∧ ∀ a b, (a, b) ∈ rest → ¬ a = k0) ∧
          keysOk rest = true := by
        simpa [keysOk, Bool.and_eq_true, List.all_eq_true] using hok
      rcases List.mem_cons.mp h with h1 | h2
      · cases h1
        exact hok'.1.1
      · exact ih hok'.2 h2

theorem findDeepest_resolve (cs : List (String × VfsNode)) (path : String)
    (hwf : nodeWF (.directory cs) = true) (hpath : ¬ path = "") :
    ∃ rel, findDeepestNewDir path cs = joinParts path rel ∧
      ∃ cs2, resolveNode (.directory cs) rel = some (.directory cs2) :=
  findDeepestAux_resolve (childrenSize cs) cs path (Nat.le_refl _) hwf hpath

theorem diffNewPass_paths (ncs oldC newC : List (String × VfsNode))
    (pfx : String)
    (hsubn : ∀ e ∈ ncs,
      alGet newC e.1 = some e.2 ∧ nodeWF e.2 = true ∧ ¬ e.1 = "") :
    ∀ c ∈ (diffNewPass oldC ncs pfx).1,
      ∃ rel, ¬ rel = [] ∧ c.path = joinParts pfx rel ∧
        ∃ cs2, resolveNode (.directory newC) rel = some (.directory cs2) := by
  induction ncs with
  | nil => intro c hc; cases hc
  | cons e rest ih =>
      obtain ⟨name, child⟩ := e
      intro c hc
      unfold diffNewPass at hc
      dsimp only at hc
      rcases List.mem_append.mp hc with hone | hrest
      · by_cases hs : (alGet oldC name).isSome = true
        · rw [if_pos hs] at hone
          cases hone
        · rw [if_neg hs] at hone
          obtain ⟨hget, hwfc, hnm⟩ :=
            hsubn (name, child) (List.mem_cons_self _ _)
          match child, hget, hwfc with
          | .directory children, hget, hwfc =>
              have hcp : ¬ childPathOf pfx name = "" := by
                unfold childPathOf
                by_cases hp : pfx = ""
                · rw [if_pos hp]
                  exact hnm
                · rw [if_neg hp]
                  exact str_append_ne_empty _ _ (str_append_ne_empty _ _ hp)
              obtain ⟨relSub, heq, cs2, hres⟩ :=
                findDeepest_resolve children (childPathOf pfx name) hwfc hcp
              have hone' : c =
                  (⟨findDeepestNewDir (childPathOf pfx name) children,
                    .created⟩ : VfsChange) := List.mem_singleton.mp hone
              refine ⟨name :: relSub, by simp, ?_, cs2, ?_⟩
              · rw [hone']
                exact heq
              · show (match alGet newC name with
                  | some c => resolveNode c relSub
                  | none => none) = some (.directory cs2)
                rw [hget]
                exact hres
          | .strmFile a b2 c2, hget, hwfc => cases hone
          | .virtualFile a, hget, hwfc => cases hone
      · exact ih (fun g hg => hsubn g (List.mem_cons_of_mem _ hg)) c hrest

mutual

/-- Every change emitted by `diff_trees` is either the `Modified` event at
the (nonempty) prefix, or sits at a component path that resolves to a
directory in the old or the new tree — never at a leaf. -/
theorem diffTrees_paths (old new : VfsNode) (pfx : String)
    (hwfo : nodeWF old = true) (hwfn : nodeWF new = true) :
    ∀ c ∈ diffTrees old new pfx,
      (c = ⟨pfx, .modified⟩ ∧ ¬ pfx = "") ∨
      ∃ rel, ¬ rel = [] ∧ c.path = joinParts pfx rel ∧
        ((∃ cs2, resolveNode old rel = some (.directory cs2)) ∨
         (∃ cs2, resolveNode new rel = some (.directory cs2))) := by
  match old, new with
  | .directory oldC, .directory newC =>
      intro c hc
      have hwfo' : keysOk oldC = true ∧ childrenWF oldC = true := by
        simpa [nodeWF, Bool.and_eq_true] using hwfo
      have hwfn' : keysOk newC = true ∧ childrenWF newC = true := by
        simpa [nodeWF, Bool.and_eq_true] using hwfn
      rw [diffTrees_dir] at hc
      dsimp only at hc
      have hold : ∀ c ∈ (diffOldPass oldC newC pfx).1,
          ∃ rel, ¬ rel = [] ∧ c.path = joinParts pfx rel ∧
            ((∃ cs2, resolveNode (.directory oldC) rel =
                some (.directory cs2)) ∨
             (∃ cs2, resolveNode (.directory newC) rel =
                some (.directory cs2))) :=
        diffOldPass_paths oldC oldC newC pfx
          (fun e he => ⟨alGet_of_mem_keysOk oldC e.1 e.2 hwfo'.1 (by
              have h2 : e = (e.1, e.2) := rfl
              rw [h2] at he
              exact he),
            childrenWF_mem oldC e.1 e.2 hwfo'.2 (by
              have h2 : e = (e.1, e.2) := rfl
              rw [h2] at he
              exact he)⟩)
          hwfn
      have hnew : ∀ c ∈ (diffNewPass oldC newC pfx).1,
          ∃ rel, ¬ rel = [] ∧ c.path = joinParts pfx rel ∧
            ∃ cs2, resolveNode (.directory newC) rel =
              some (.directory cs2) :=
        diffNewPass_paths newC oldC newC pfx
          (fun e he => by
            refine ⟨alGet_of_mem_keysOk newC e.1 e.2 hwfn'.1 (by
                have h2 : e = (e.1, e.2) := rfl
                rw [h2] at he
                exact he),
              childrenWF_mem newC e.1 e.2 hwfn'.2 (by
                have h2 : e = (e.1, e.2) := rfl
                rw [h2] at he
                exact he), ?_⟩
            -- nonempty key from keysOk
            exact keysOk_ne_empty newC hwfn'.1 e.1 e.2 (by
              have h2 : e = (e.1, e.2) := rfl
              rw [h2] at he
              exact he))
      split at hc
      · rcases List.mem_append.mp hc with h1 | h2
        · rcases List.mem_append.mp h1 with h3 | h4
          · rcases hold c h3 with ⟨rel, hne, hpath, hres⟩
            exact Or.inr ⟨rel, hne, hpath, hres⟩
          · rcases hnew c h4 with ⟨rel, hne, hpath, hres⟩
            exact Or.inr ⟨rel, hne, hpath, Or.inr hres⟩
        · have hcond := by assumption
          rename_i hcondn
          have hpfx : ¬ pfx = "" := by
            have h5 := (Bool.and_eq_true _ _).mp hcondn
            exact of_decide_eq_true h5.2
          exact Or.inl ⟨List.mem_singleton.mp h2, hpfx⟩
      · rcases List.mem_append.mp hc with h3 | h4
        · rcases hold c h3 with ⟨rel, hne, hpath, hres⟩
          exact Or.inr ⟨rel, hne, hpath, hres⟩
        · rcases hnew c h4 with ⟨rel, hne, hpath, hres⟩
          exact Or.inr ⟨rel, hne, hpath, Or.inr hres⟩
  | .directory oldC, .strmFile a b c =>
      intro x hx
      exact absurd hx (List.not_mem_nil x)
  | .directory oldC, .virtualFile a =>
      intro x hx
      exact absurd hx (List.not_mem_nil x)
  | .strmFile a b c, .directory newC =>
      intro x hx
      exact absurd hx (List.not_mem_nil x)
  | .strmFile a b c, .strmFile a2 b2 c2 =>
      intro x hx
      exact absurd hx (List.not_mem_nil x)
  | .strmFile a b c, .virtualFile a2 =>
      intro x hx
      exact absurd hx (List.not_mem_nil x)
  | .virtualFile a, .directory newC =>
      intro x hx
      exact absurd hx (List.not_mem_nil x)
  | .virtualFile a, .strmFile a2 b2 c2 =>
      intro x hx
      exact absurd hx (List.not_mem_nil x)
  | .virtualFile a, .virtualFile a2 =>
      intro x hx
      exact absurd hx (List.not_mem_nil x)

theorem diffOldPass_paths (cs oldC newC : List (String × VfsNode))
    (pfx : String)
    (hsub : ∀ e ∈ cs, alGet oldC e.1 = some e.2 ∧ nodeWF e.2 = true)
    (hwfn : nodeWF (.directory newC) = true) :
    ∀ c ∈ (diffOldPass cs newC pfx).1,
      ∃ rel, ¬ rel = [] ∧ c.path = joinParts pfx rel ∧
        ((∃ cs2, resolveNode (.directory oldC) rel =
            some (.directory cs2)) ∨
         (∃ cs2, resolveNode (.directory newC) rel =
            some (.directory cs2))) := by
  match cs with
  | [] => intro c hc; cases hc
  | (name, child) :: rest =>
      intro c hc
      rw [diffOldPass_cons] at hc
      dsimp only at hc
      rcases List.mem_append.mp hc with hone | hrest
      · obtain ⟨hget, hwfc⟩ := hsub (name, child) (List.mem_cons_self _ _)
        rcases hgn : alGet newC name with _ | newChild
        · rw [hgn] at hone
          match child, hget, hwfc with
          | .directory oc, hget, hwfc =>
              have hone' : c = (⟨childPathOf pfx name, .deleted⟩ : VfsChange) :=
                List.mem_singleton.mp hone
              refine ⟨[name], by simp, by rw [hone']; rfl, Or.inl ⟨oc, ?_⟩⟩
              show (match alGet oldC name with
                | some c2 => resolveNode c2 []
                | none => none) = some (.directory oc)
              rw [hget]
              rfl
          | .strmFile a b2 c2, hget, hwfc => cases hone
          | .virtualFile a, hget, hwfc => cases hone
        · rw [hgn] at hone
          have hwfnc : nodeWF newChild = true := by
            have hwfn' : keysOk newC = true ∧ childrenWF newC = true := by
              simpa [nodeWF, Bool.and_eq_true] using hwfn
            exact childrenWF_mem newC name newChild hwfn'.2
              (alGet_mem _ _ _ hgn)
          match child, newChild, hget, hwfc, hwfnc, hone with
          | .directory oc, .directory nc, hget, hwfc, hwfnc, hone =>
              dsimp only at hone
              have hresolve_old : ∀ rel2 cs2,
                  resolveNode (.directory oc) rel2 = some (.directory cs2) →
                  resolveNode (.directory oldC) (name :: rel2) =
                    some (.directory cs2) := by
                intro rel2 cs2 hr
                show (match alGet oldC name with
                  | some c2 => resolveNode c2 rel2
                  | none => none) = some (.directory cs2)
                rw [hget]
                exact hr
              have hresolve_new : ∀ rel2 cs2,
                  resolveNode (.directory nc) rel2 = some (.directory cs2) →
                  resolveNode (.directory newC) (name :: rel2) =
                    some (.directory cs2) := by
                intro rel2 cs2 hr
                show (match alGet newC name with
                  | some c2 => resolveNode c2 rel2
                  | none => none) = some (.directory cs2)
                rw [hgn]
                exact hr
              split at hone
              · have hone' : c =
                    (⟨childPathOf pfx name, .modified⟩ : VfsChange) :=
                  List.mem_singleton.mp hone
                refine ⟨[name], by simp, by rw [hone']; rfl, Or.inl ⟨oc, ?_⟩⟩
                exact hresolve_old [] oc rfl
              · rcases diffTrees_paths (.directory oc) (.directory nc)
                  (childPathOf pfx name) hwfc hwfnc c hone with
                  ⟨hceq, hcp⟩ | ⟨rel2, hne2, hpath2, hres2⟩
                · refine ⟨[name], by simp, by rw [hceq]; rfl, Or.inl ⟨oc, ?_⟩⟩
                  exact hresolve_old [] oc rfl
                · refine ⟨name :: rel2, by simp, ?_, ?_⟩
                  · exact hpath2
                  · rcases hres2 with ⟨cs2, hr⟩ | ⟨cs2, hr⟩
                    · exact Or.inl ⟨cs2, hresolve_old rel2 cs2 hr⟩
                    · exact Or.inr ⟨cs2, hresolve_new rel2 cs2 hr⟩
          | .directory oc, .strmFile a2 b2 c2, hget, hwfc, hwfnc, hone =>
              dsimp only at hone
              split at hone <;> cases hone
          | .directory oc, .virtualFile a2, hget, hwfc, hwfnc, hone =>
              dsimp only at hone
              split at hone <;> cases hone
          | .strmFile a b2 c2, nch, hget, hwfc, hwfnc, hone =>
              dsimp only at hone
              split at hone <;> cases hone
          | .virtualFile a, nch, hget, hwfc, hwfnc, hone =>
              dsimp only at hone
              split at hone <;> cases hone
      · exact diffOldPass_paths rest oldC newC pfx
          (fun e he => hsub e (List.mem_cons_of_mem _ he)) hwfn c hrest

end

/-- **C7 (amended).** `diff_trees` reports change points at directory
granularity: a directory whose directory-valued children agree but whose
leaf children differ yields a single `Modified` event at the directory
itself — except at the root (empty prefix), where a pure leaf-level change
produces no event at all; every emitted path resolves to a directory of the
old or the new tree, never to a leaf (stream or virtual file); a newly
introduced directory is reported as `Created` at its deepest single-branch
descendant; a removed directory is reported as `Deleted` at its own path;
identical well-formed subtrees emit nothing. -/
theorem c7_diff_change_points :
    (∀ (oldC newC : List (String × VfsNode)) (pfx : String),
        nodeWF (.directory oldC) = true → nodeWF (.directory newC) = true →
        (∀ e ∈ oldC ++ newC, isDirNode e.2 = true →
          alGet oldC e.1 = alGet newC e.1) →
        (∃ e ∈ oldC ++ newC, ¬ alGet oldC e.1 = alGet newC e.1) →
        ¬ pfx = "" →
        diffTrees (.directory oldC) (.directory newC) pfx =
          [⟨pfx, .modified⟩]) ∧
    (∀ (old new : VfsNode), nodeWF old = true → nodeWF new = true →
        ∀ c ∈ diffTrees old new "",
          ∃ rel, ¬ rel = [] ∧ c.path = joinParts "" rel ∧
            ((∃ cs2, resolveNode old rel = some (.directory cs2)) ∨
             (∃ cs2, resolveNode new rel = some (.directory cs2)))) ∧
    (∀ (oldC newC : List (String × VfsNode)) (pfx name : String)
        (cs0 : List (String × VfsNode)),
        alGet oldC name = none →
        alGet newC name = some (.directory cs0) →
        (⟨findDeepestNewDir (childPathOf pfx name) cs0, .created⟩ :
            VfsChange) ∈
          diffTrees (.directory oldC) (.directory newC) pfx ∧
        DeepestSingleBranch (childPathOf pfx name) cs0
          (findDeepestNewDir (childPathOf pfx name) cs0)) ∧
    (∀ (oldC newC : List (String × VfsNode)) (pfx name : String)
        (oc : List (String × VfsNode)),
        (name, VfsNode.directory oc) ∈ oldC →
        alGet newC name = none →
        (⟨childPathOf pfx name, .deleted⟩ : VfsChange) ∈
          diffTrees (.directory oldC) (.directory newC) pfx) ∧
    (∀ (t : VfsNode) (pfx : String), nodeWF t = true →
        diffTrees t t pfx = []) := by
  refine ⟨diffTrees_leaf_only, ?_, ?_, ?_, fun t pfx h => diffTrees_refl t pfx h⟩
  · intro old new hwfo hwfn c hc
    rcases diffTrees_paths old new "" hwfo hwfn c hc with ⟨_, hne⟩ | h
    · exact absurd rfl hne
    · exact h
  · intro oldC newC pfx name cs0 hnone hget
    exact ⟨diffTrees_mem_new oldC newC pfx _
        (diffNewPass_created_mem newC oldC pfx name cs0
          (alGet_mem _ _ _ hget) hnone),
      findDeepest_DSB _ _⟩
  · intro oldC newC pfx name oc hmem hnone
    exact diffTrees_mem_old oldC newC pfx _
      (diffOldPass_deleted_mem oldC newC pfx name oc hmem hnone)

/-- **C7 counterexample.** "For every pair of trees, diff reports a subtree
where only leaf children differ as a single Modified event at the parent
directory": at the root (empty prefix) a pure leaf change yields no event
at all — `has_leaf_changes` is discarded because
`diff_trees` pushes the parent `Modified` only when `!prefix.is_empty()`. -/
theorem c7_counterexample :
    diffTrees (.directory [("a.strm", .strmFile [49] "l1" "t1")])
        (.directory [("a.strm", .strmFile [50] "l1" "t1")]) "" = [] ∧
    ¬ (VfsNode.strmFile [49] "l1" "t1") = (.strmFile [50] "l1" "t1") ∧
    nodeWF (.directory [("a.strm", .strmFile [49] "l1" "t1")]) = true ∧
    nodeWF (.directory [("a.strm", .strmFile [50] "l1" "t1")]) = true := by
  decide

def c7OldC : List (String × VfsNode) :=
  [("leaf.strm", .strmFile [49] "l1" "t1"),
   ("sub", .directory [("x.strm", .strmFile [50] "l2" "t2")])]

def c7NewC : List (String × VfsNode) :=
  [("leaf.strm", .strmFile [51] "l1" "t1"),
   ("sub", .directory [("x.strm", .strmFile [50] "l2" "t2")])]

def c7ShowC : List (String × VfsNode) :=
  [("Breaking Bad", .directory
    [("Season 01", .directory
      [("S01E01.strm", .strmFile [52] "l3" "t3")])])]

def c7DelC : List (String × VfsNode) :=
  [("gone", .directory [("y.strm", .strmFile [53] "l4" "t4")])]

/-- Witness for C7 at concrete trees: a non-root leaf-only change collapses
to one `Modified` at the parent; a new `Shows/Breaking Bad/Season 01`
branch is created at its deepest single-branch directory; a removed
directory is deleted at its top and its path resolves to a directory;
identical trees diff to nothing. -/
theorem c7_diff_change_points_witness :
    diffTrees (.directory c7OldC) (.directory c7NewC) "Movies/M" =
      [⟨"Movies/M", .modified⟩] ∧
    (⟨findDeepestNewDir "Shows" c7ShowC, .created⟩ : VfsChange) ∈
      diffTrees (.directory []) (.directory [("Shows", .directory c7ShowC)])
        "" ∧
    findDeepestNewDir "Shows" c7ShowC = "Shows/Breaking Bad/Season 01" ∧
    (⟨"gone", .deleted⟩ : VfsChange) ∈
      diffTrees (.directory c7DelC) (.directory []) "" ∧
    (∃ rel, ¬ rel = [] ∧ ("gone" : String) = joinParts "" rel ∧
      ((∃ cs2, resolveNode (.directory c7DelC) rel =
          some (.directory cs2)) ∨
       (∃ cs2, resolveNode (.directory ([] : List (String × VfsNode))) rel =
          some (.directory cs2)))) ∧
    diffTrees (.directory c7OldC) (.directory c7OldC) "Shows" = [] := by
  obtain ⟨ha, hb, hc, hd, he⟩ := c7_diff_change_points
  have hdel : (⟨"gone", .deleted⟩ : VfsChange) ∈
      diffTrees (.directory c7DelC) (.directory []) "" :=
    hd c7DelC [] "" "gone" [("y.strm", .strmFile [53] "l4" "t4")]
      (List.mem_cons_self _ _) rfl
  refine ⟨?_, ?_, ?_, hdel, ?_, ?_⟩
  · exact ha c7OldC c7NewC "Movies/M" (by decide) (by decide) (by decide)
      (by decide) (by decide)
  · exact (hc [] [("Shows", .directory c7ShowC)] "" "Shows" c7ShowC
      rfl rfl).1
  · decide
  · exact hb (.directory c7DelC) (.directory []) (by decide) (by decide)
      ⟨"gone", .deleted⟩ hdel
  · exact he (.directory c7OldC) "Shows" (by decide)

/-! ### The StreamFile read path (spec section 4.6)

src/dav_fs.rs in this tree is a stale revision: it matches a
`VfsNode::File` variant that `src/vfs.rs` does not define, and its
two-argument `DebridFileSystem::new` disagrees with the three-argument
calls in `src/main.rs` and the integration tests, so the `DebridFile`
read implementation that the rest of the code links against is missing
from src.  The read path is therefore modelled from the spec, on top of
the `should_hide` / `mark_broken` embeddings proved against
src/repair.rs. -/

/-- Modelled from the spec: an open stream-file handle carries the stored
payload, the origin link, the origin torrent id, and a read position
starting at 0. -/
structure StrmFileHandle where
  content : List Nat
  origin_link : String
  origin_torrent_id : String
  position : Nat
deriving Repr, DecidableEq

/-- Modelled from the spec: the side effects a read can spawn without
awaiting them. -/
inductive ReadEffect where
  | spawnRepairById (id : String)
deriving Repr, DecidableEq

/-- Modelled from the spec (section 4.6, StreamFile read semantics):
1. if `should_hide(origin_torrent_id)`, fail;
2. unrestrict `origin_link`; on success serve bytes of `"<url>\n"` from
   the current position and advance it;
3. on unrestrict failure, `mark_broken(id, link)`, spawn
   `repair_by_id(id)` without awaiting it, and fail the read.
The unrestrict outcome is an oracle argument; the returned quadruple is
(read result, updated handle, updated health map, spawned effects). -/
def strmReadBytes (h : StrmFileHandle) (health : HealthMap) (now : Nat)
    (lenReq : Nat) (unrestrict : Except String String) :
    Except String (List Nat) × StrmFileHandle × HealthMap × List ReadEffect :=
  if shouldHideTorrent health h.origin_torrent_id then
    (.error "torrent hidden pending repair", h, health, [])
  else
    match unrestrict with
    | .ok url =>
        let data := utf8Bytes (url ++ "\n")
        let served := (data.drop h.position).take lenReq
        (.ok served, { h with position := h.position + served.length },
          health, [])
    | .error e =>
        (.error e, h,
          markBroken health h.origin_torrent_id h.origin_link now,
          [.spawnRepairById h.origin_torrent_id])

theorem shouldHide_markBroken (health : HealthMap) (id link : String)
    (now : Nat) :
    shouldHideTorrent (markBroken health id link now) id = true := by
  unfold shouldHideTorrent markBroken
  rw [alGet_alInsert]
  rw [if_pos rfl]

/-- **C1.** A stream-file read fails up front — regardless of the
unrestrict outcome, touching neither the health map nor spawning anything —
whenever `should_hide(origin_torrent_id)` holds; and when the torrent is
not hidden but the unrestrict of `origin_link` fails, the read returns that
failure, applies `mark_broken(id, link)` to the health map, and spawns
exactly `repair_by_id(id)` without awaiting it (after which the id is
hidden). -/
theorem c1_strm_read_failures :
    (∀ (h : StrmFileHandle) (health : HealthMap) (now lenReq : Nat)
        (unrestrict : Except String String),
        shouldHideTorrent health h.origin_torrent_id = true →
        (strmReadBytes h health now lenReq unrestrict).1 =
            .error "torrent hidden pending repair" ∧
          (strmReadBytes h health now lenReq unrestrict).2.2.1 = health ∧
          (strmReadBytes h health now lenReq unrestrict).2.2.2 = []) ∧
    (∀ (h : StrmFileHandle) (health : HealthMap) (now lenReq : Nat)
        (e : String),
        shouldHideTorrent health h.origin_torrent_id = false →
        (strmReadBytes h health now lenReq (.error e)).1 = .error e ∧
          (strmReadBytes h health now lenReq (.error e)).2.2.1 =
            markBroken health h.origin_torrent_id h.origin_link now ∧
          (strmReadBytes h health now lenReq (.error e)).2.2.2 =
            [.spawnRepairById h.origin_torrent_id] ∧
          shouldHideTorrent
            (strmReadBytes h health now lenReq (.error e)).2.2.1
            h.origin_torrent_id = true) := by
  constructor
  · intro h health now lenReq unrestrict hhide
    unfold strmReadBytes
    rw [if_pos hhide]
    exact ⟨rfl, rfl, rfl⟩
  · intro h health now lenReq e hshow
    unfold strmReadBytes
    rw [if_neg (by rw [hshow]; exact Bool.false_ne_true)]
    exact ⟨rfl, rfl, rfl, shouldHide_markBroken health _ _ now⟩

def c1Handle : StrmFileHandle :=
  { content := strmContentBytes "http://x", origin_link := "http://x",
    origin_torrent_id := "tor1", position := 0 }

def c1HiddenHealth : HealthMap :=
  [("tor1", { torrent_id := "tor1", state := .broken,
              failed_links := ["http://x"], last_check := 5,
              repair_attempts := 1, last_repair_trigger := none })]

/-- Witness for C1: with a broken entry the read fails untouched; with an
empty health map and a failing unrestrict it fails, marks the torrent
broken and spawns its repair. -/
theorem c1_strm_read_failures_witness :
    (strmReadBytes c1Handle c1HiddenHealth 7 16 (.ok "http://fresh")).1 =
        .error "torrent hidden pending repair" ∧
      (strmReadBytes c1Handle [] 7 16 (.error "410 gone")).1 =
        .error "410 gone" ∧
      (strmReadBytes c1Handle [] 7 16 (.error "410 gone")).2.2.1 =
        markBroken [] "tor1" "http://x" 7 ∧
      (strmReadBytes c1Handle [] 7 16 (.error "410 gone")).2.2.2 =
        [.spawnRepairById "tor1"] ∧
      shouldHideTorrent
        (strmReadBytes c1Handle [] 7 16 (.error "410 gone")).2.2.1
        "tor1" = true := by
  obtain ⟨h1, _, _⟩ :=
    c1_strm_read_failures.1 c1Handle c1HiddenHealth 7 16
      (.ok "http://fresh") (by decide)
  obtain ⟨h2, h3, h4, h5⟩ :=
    c1_strm_read_failures.2 c1Handle [] 7 16 "410 gone" (by decide)
  exact ⟨h1, h2, h3, h4, h5⟩

/-- **C4 counterexample.** "Every throttle call at least doubles the interval"
fails at the cap: after four throttles from the initial state the interval is
1600 ms, and the fifth throttle produces 2000 ms, strictly less than
2 · 1600 = 3200. -/
theorem c4_counterexample :
    (runRLOps (RateLimiterState.init 0)
        [.throttle none 0, .throttle none 0, .throttle none 0,
         .throttle none 0]).interval_ms = 1600 ∧
    (runRLOps (RateLimiterState.init 0)
        [.throttle none 0, .throttle none 0, .throttle none 0,
         .throttle none 0, .throttle none 0]).interval_ms = 2000 ∧
    ¬ (2 * 1600 ≤ 2000) := by
  refine ⟨by decide, by decide, by decide⟩

end DebridMovieMapper
